import Mathlib

/-!
Container writer and reader of the package `assetpacker`.

A shallow embedding of `src/asset.go`, `src/packer.go` and `src/reader.go`.

* A Go `string` and a Go `[]byte` are both byte sequences; they are modelled as `List Nat`
  (every real byte is a natural number below 256).
* The AEAD (`crypto/aes` + `crypto/cipher` GCM) and gzip are external libraries; they are
  taken as the parameters collected in `Prims`.
* `strconv.Atoi` and the `%d` verb of `fmt.Sprintf` are Go standard library functions; they
  are modelled by `Atoi` (64-bit `int`) and `itoa`.
* A Go call returns a value, returns an error, or panics: `Outcome`. The panics modelled
  are those of `make([]byte, n)` (`n` negative or above `maxAlloc`) and of the slice
  expressions.
* The frame loops run on fuel; the constructors supply `len(data) + 1`, which is always
  enough (`readLoopBytes_total`, `readLoopBytes_fuel`), and every statement about a
  constructor gives its result as `some _`, i.e. it includes that the loop finishes.
-/

namespace AssetPacker

/-- Byte sequences: Go `[]byte` and Go `string`. -/
abbrev Bytes := List Nat

/-- The delimiter byte `':'`. -/
def colon : Nat := 58

/-- Asset defines an asset with its type and content (`src/asset.go`); the field `Type` of
the source is `Typ` here. -/
structure Asset where
  Path : Bytes
  Typ : Bytes
  Content : Bytes
deriving DecidableEq, Repr

/-- The places at which the source returns a non-nil `error`. -/
inductive Err where
  | invalidKey
  | openFile
  | create
  | compress
  | rand
  | readPath
  | readType
  | readSize
  | convSize
  | readContent
  | notEnoughNonce
  | decrypt
  | gzipReader
  | decompress
  | notFound
deriving DecidableEq, Repr

/-- What a Go call does: it returns a value with a nil error, it returns a non-nil error
(and no value), or it hits a runtime panic. -/
inductive Outcome (α : Type) where
  | ok (a : α)
  | error (e : Err)
  | panic
deriving DecidableEq, Repr

/-- Result of `gzip.NewReader` followed by `io.ReadAll`. -/
inductive Gunzip where
  | badHeader
  | badBody
  | data (content : Bytes)
deriving DecidableEq, Repr

/-- The external library primitives the package calls.
`gcmSeal key nonce plaintext` is the ciphertext followed by the tag, that is what
`gcm.Seal` appends to its `dst` argument; `gcmOpen key nonce ciphertext` is `gcm.Open`
(`none` when authentication fails); `gzip` is what `gzip.Writer` leaves in the buffer
(`none` when `Write` or `Close` fails); `gunzip` is `gzip.NewReader` + `io.ReadAll`. -/
structure Prims where
  gcmSeal : Bytes → Bytes → Bytes → Bytes
  gcmOpen : Bytes → Bytes → Bytes → Option Bytes
  gzip : Bytes → Option Bytes
  gunzip : Bytes → Gunzip

/-- The byte-provider and byte-sink collaborators: `readFile` is `os.ReadFile` / the
contents behind `os.Open` (`none` when the file cannot be opened); `create` tells whether
`os.Create` succeeds on a path. The output file is a sink of its own: writing it does not
change what `readFile` returns, and a write to a created file succeeds. -/
structure Env where
  readFile : Bytes → Option Bytes
  create : Bytes → Bool

/-- The nonce size of the standard GCM mode returned by `cipher.NewGCM`. -/
def nonceSize : Nat := 12

/-- The function `aes.NewCipher` followed by `cipher.NewGCM`: the key must be 16, 24 or 32
bytes long. -/
def newGCM (key : Bytes) : Except Err Unit :=
  if key.length = 16 ∨ key.length = 24 ∨ key.length = 32 then .ok () else .error .invalidKey

/-! ## Standard library: integers in decimal -/

/-- Digit loop of `strconv.ParseUint` in base 10: `none` is a syntax error. -/
def parseUintDigits (acc : Nat) : Bytes → Option Nat
  | [] => some acc
  | c :: cs => if 48 ≤ c ∧ c ≤ 57 then parseUintDigits (acc * 10 + (c - 48)) cs else none

/-- The function `strconv.Atoi` for a 64-bit `int`: an optional `'+'` or `'-'`, then a
non-empty run of ASCII digits, the value in the range of `int`; `none` for the syntax and
range errors. -/
def Atoi (s : Bytes) : Option Int :=
  let neg : Bool := s.head? = some 45
  let digits : Bytes := if s.head? = some 43 ∨ s.head? = some 45 then s.tail else s
  if digits = [] then none
  else
    match parseUintDigits 0 digits with
    | none => none
    | some un =>
      if neg = false ∧ 2 ^ 63 ≤ un then none
      else if neg = true ∧ 2 ^ 63 < un then none
      else some (if neg then -(un : Int) else (un : Int))

/-- Digits of `n`, most significant first, put in front of `acc`. -/
def itoaAux : Nat → Nat → Bytes → Bytes
  | 0, _, acc => acc
  | fuel + 1, n, acc =>
    if n < 10 then (48 + n) :: acc else itoaAux fuel (n / 10) ((48 + n % 10) :: acc)

/-- The verb `%d` of `fmt.Sprintf` on a non-negative `int`. -/
def itoa (n : Nat) : Bytes := itoaAux (n + 1) n []

/-! ## The writer: `src/packer.go` -/

/-- The function `openFile` of `src/asset.go`. -/
def openFile (E : Env) (path : Bytes) : Except Err Bytes :=
  match E.readFile path with
  | none => .error .openFile
  | some content => .ok content

/-- The function `compressAsset`: gzip of the data. -/
def compressAsset (P : Prims) (data : Bytes) : Except Err Bytes :=
  match P.gzip data with
  | none => .error .compress
  | some b => .ok b

/-- The `for _, asset := range assets` loop of `PackAssets`. `rand` is what `rand.Reader`
will deliver, `out` the bytes written to the file so far; the result is the error returned
(if any), and the contents of the file. -/
def packLoop (P : Prims) (E : Env) (key : Bytes) : List Asset → Bytes → Bytes → Option Err × Bytes
  | [], _, out => (none, out)
  | asset :: assets, rand, out =>
    match openFile E asset.Path with
    | .error e => (some e, out)
    | .ok content =>
      match compressAsset P content with
      | .error e => (some e, out)
      | .ok compressed =>
        if rand.length < nonceSize then (some .rand, out)
        else
          let nonce := rand.take nonceSize
          let encrypted := nonce ++ P.gcmSeal key nonce compressed
          let out := out ++ (asset.Path ++ [colon] ++ asset.Typ ++ [colon]
            ++ itoa encrypted.length ++ [colon])
          let out := out ++ encrypted
          packLoop P E key assets (rand.drop nonceSize) out

/-- What `PackAssets` leaves behind: the error it returns (`none` for nil) and the output
file (`none` when it was never created). -/
structure PackResult where
  err : Option Err
  file : Option Bytes
deriving DecidableEq, Repr

/-- PackAssets compresses, encrypts, and writes assets to a binary file. -/
def PackAssets (P : Prims) (E : Env) (rand : Bytes) (assets : List Asset) (outputPath : Bytes)
    (key : Bytes) : PackResult :=
  match newGCM key with
  | .error e => ⟨some e, none⟩
  | .ok _ =>
    if E.create outputPath = false then ⟨some .create, none⟩
    else
      let r := packLoop P E key assets rand []
      ⟨r.1, some r.2⟩

/-! ## The reader: `src/reader.go` -/

/-- The Go `map[string]Asset`, as an association list with one entry for each key. -/
abbrev Index := List (Bytes × Asset)

/-- Map read `m[k]`. -/
def mapLookup : Index → Bytes → Option Asset
  | [], _ => none
  | (k1, v) :: m, k => if k1 = k then some v else mapLookup m k

/-- Map write `m[k] = v`. -/
def mapInsert (m : Index) (k : Bytes) (v : Asset) : Index :=
  (k, v) :: m.filter (fun e => decide (e.1 ≠ k))

/-- AssetReader manages the decrypted assets. -/
structure AssetReader where
  assets : Index
deriving DecidableEq, Repr

/-- The loop of `readUntilColon`: `buffer` holds the bytes read so far; `none` is the
error of `ReadByte` (end of stream), which drops the buffer. -/
def readUntilColonAux (buffer : Bytes) : Bytes → Option (Bytes × Bytes)
  | [] => none
  | b :: r => if b = colon then some (buffer, r) else readUntilColonAux (buffer ++ [b]) r

/-- The function `readUntilColon` reads from the reader until it hits a colon or an error
occurs; it returns the string and the reader after the colon. -/
def readUntilColon (r : Bytes) : Option (Bytes × Bytes) := readUntilColonAux [] r

/-- The two errors `io.ReadFull` gives on an in-memory or file stream. -/
inductive ReadErr where
  | EOF
  | ErrUnexpectedEOF
deriving DecidableEq, Repr

/-- The constant `maxAlloc` of the Go runtime on 64-bit platforms such as linux/amd64: the
largest number of bytes `make` accepts. -/
def maxAlloc : Nat := 2 ^ 48

/-- The call `make([]byte, n)`: a zeroed buffer, or the panic `makeslice: len out of range`
for a negative length and for a length above `maxAlloc`. Running out of physical memory
below that bound is outside the model. -/
def makeBytes (n : Int) : Option Bytes :=
  if n < 0 ∨ (maxAlloc : Int) < n then none else some (List.replicate n.toNat 0)

/-- The call `io.ReadFull(reader, buf)`: the buffer after the read, the number of bytes
read, the error, and the reader after the read. -/
def readFull (reader buf : Bytes) : Bytes × Nat × Option ReadErr × Bytes :=
  let n := min buf.length reader.length
  let err : Option ReadErr :=
    if n = buf.length then none
    else if n = 0 then some .EOF
    else some .ErrUnexpectedEOF
  (reader.take n ++ buf.drop n, n, err, reader.drop n)

/-- Slice expression `s[:hi]`; `none` is the out-of-range panic. -/
def sliceTo (s : Bytes) (hi : Nat) : Option Bytes :=
  if hi ≤ s.length then some (s.take hi) else none

/-- Slice expression `s[lo:]`; `none` is the out-of-range panic. -/
def sliceFrom (s : Bytes) (lo : Nat) : Option Bytes :=
  if lo ≤ s.length then some (s.drop lo) else none

/-- The `for` loop of `NewAssetReaderFromBytes`; `none` only when the fuel runs out. -/
def readLoopBytes (P : Prims) (key : Bytes) : Nat → Bytes → Index → Option (Outcome Index)
  | 0, _, _ => none
  | fuel + 1, reader, assets =>
    match readUntilColon reader with
    | none => some (.ok assets)
    | some (path, reader) =>
      match readUntilColon reader with
      | none => some (.error .readType)
      | some (typeStr, reader) =>
        match readUntilColon reader with
        | none => some (.error .readSize)
        | some (sizeStr, reader) =>
          match Atoi sizeStr with
          | none => some (.error .convSize)
          | some sizeInt =>
            match makeBytes sizeInt with
            | none => some .panic
            | some buf =>
              match readFull reader buf with
              | (encrypted, bytesRead, err, reader) =>
                match (match err with
                    | none => some encrypted
                    | some .EOF => sliceTo encrypted bytesRead
                    | some .ErrUnexpectedEOF => sliceTo encrypted bytesRead) with
                | none => some .panic
                | some encrypted =>
                  if encrypted.length < nonceSize then some (.error .notEnoughNonce)
                  else
                    match sliceTo encrypted nonceSize, sliceFrom encrypted nonceSize with
                    | some nonce, some content =>
                      match P.gcmOpen key nonce content with
                      | none => some (.error .decrypt)
                      | some decrypted =>
                        match P.gunzip decrypted with
                        | .badHeader => some (.error .gzipReader)
                        | .badBody => some (.error .decompress)
                        | .data content =>
                          readLoopBytes P key fuel reader
                            (mapInsert assets path ⟨path, typeStr, content⟩)
                    | _, _ => some .panic

/-- The `for` loop of `NewAssetReader`; `none` only when the fuel runs out. -/
def readLoopFile (P : Prims) (key : Bytes) : Nat → Bytes → Index → Option (Outcome Index)
  | 0, _, _ => none
  | fuel + 1, reader, assets =>
    match readUntilColon reader with
    | none => some (.ok assets)
    | some (path, reader) =>
      match readUntilColon reader with
      | none => some (.error .readType)
      | some (typeStr, reader) =>
        match readUntilColon reader with
        | none => some (.error .readSize)
        | some (sizeStr, reader) =>
          match Atoi sizeStr with
          | none => some (.error .convSize)
          | some sizeInt =>
            match makeBytes sizeInt with
            | none => some .panic
            | some buf =>
              match readFull reader buf with
              | (encrypted, bytesRead, err, reader) =>
                match (match err with
                    | none => some encrypted
                    | some .EOF => sliceTo encrypted bytesRead
                    | some .ErrUnexpectedEOF => sliceTo encrypted bytesRead) with
                | none => some .panic
                | some encrypted =>
                  if encrypted.length < nonceSize then some (.error .notEnoughNonce)
                  else
                    match sliceTo encrypted nonceSize, sliceFrom encrypted nonceSize with
                    | some nonce, some content =>
                      match P.gcmOpen key nonce content with
                      | none => some (.error .decrypt)
                      | some decrypted =>
                        match P.gunzip decrypted with
                        | .badHeader => some (.error .gzipReader)
                        | .badBody => some (.error .decompress)
                        | .data content =>
                          readLoopFile P key fuel reader
                            (mapInsert assets path ⟨path, typeStr, content⟩)
                    | _, _ => some .panic

/-- Wraps the index the loop returns into `&AssetReader{assets: assets}`. -/
def toReader : Option (Outcome Index) → Option (Outcome AssetReader)
  | none => none
  | some (.ok assets) => some (.ok ⟨assets⟩)
  | some (.error e) => some (.error e)
  | some .panic => some .panic

/-- NewAssetReaderFromBytes initializes and returns an AssetReader with decrypted assets
from byte slice data. -/
def NewAssetReaderFromBytes (P : Prims) (data : Bytes) (key : Bytes) :
    Option (Outcome AssetReader) :=
  match newGCM key with
  | .error e => some (.error e)
  | .ok _ => toReader (readLoopBytes P key (data.length + 1) data [])

/-- NewAssetReader initializes and returns an AssetReader with decrypted assets from a
file. -/
def NewAssetReader (P : Prims) (E : Env) (filePath : Bytes) (key : Bytes) :
    Option (Outcome AssetReader) :=
  match E.readFile filePath with
  | none => some (.error .openFile)
  | some data =>
    match newGCM key with
    | .error e => some (.error e)
    | .ok _ => toReader (readLoopFile P key (data.length + 1) data [])

/-- GetAsset retrieves an asset by its path including its type information; the second
component is the reader after the call. -/
def GetAsset (ar : AssetReader) (path : Bytes) : Outcome Asset × AssetReader :=
  match mapLookup ar.assets path with
  | some asset => (.ok asset, ar)
  | none => (.error .notFound, ar)

/-! ## One iteration of the frame loop -/

/-- What one iteration of the frame loop does. -/
inductive Step where
  | stop
  | fail (e : Err)
  | panic
  | frame (a : Asset) (rest : Bytes)
deriving DecidableEq, Repr

/-- The part of an iteration that follows the parsed length field, with the buffer
handling of `make`, `io.ReadFull` and the slice expressions worked out: `r3` is the stream
after the third delimiter; `make` panics on a length that is negative or above `maxAlloc`;
otherwise the payload is the first `sizeInt` bytes of `r3`, or all of it when it is
shorter. -/
def readPayload (P : Prims) (key : Bytes) (path typeStr : Bytes) (sizeInt : Int)
    (r3 : Bytes) : Step :=
  if sizeInt < 0 ∨ (maxAlloc : Int) < sizeInt then .panic
  else if (r3.take sizeInt.toNat).length < nonceSize then .fail .notEnoughNonce
  else
    match P.gcmOpen key ((r3.take sizeInt.toNat).take nonceSize)
        ((r3.take sizeInt.toNat).drop nonceSize) with
    | none => .fail .decrypt
    | some decrypted =>
      match P.gunzip decrypted with
      | .badHeader => .fail .gzipReader
      | .badBody => .fail .decompress
      | .data content => .frame ⟨path, typeStr, content⟩ (r3.drop sizeInt.toNat)

/-- One iteration of the frame loop (`readLoopBytes_succ` and `readLoopFile_succ` prove
that this is what the loops do). -/
def readFrame (P : Prims) (key : Bytes) (reader : Bytes) : Step :=
  match readUntilColon reader with
  | none => .stop
  | some (path, r1) =>
    match readUntilColon r1 with
    | none => .fail .readType
    | some (typeStr, r2) =>
      match readUntilColon r2 with
      | none => .fail .readSize
      | some (sizeStr, r3) =>
        match Atoi sizeStr with
        | none => .fail .convSize
        | some sizeInt => readPayload P key path typeStr sizeInt r3

/-- The frames decoded by the successive iterations of the loop, in stream order. -/
def decodeFrames (P : Prims) (key : Bytes) : Nat → Bytes → List Asset
  | 0, _ => []
  | fuel + 1, reader =>
    match readFrame P key reader with
    | .frame a rest => a :: decodeFrames P key fuel rest
    | _ => []

/-- The loop, started on stream `d` with index `i`, is back at its head on stream `d2`
with index `i2` after zero or more complete iterations. -/
inductive Reaches (P : Prims) (key : Bytes) : Bytes → Index → Bytes → Index → Prop where
  | refl (d : Bytes) (i : Index) : Reaches P key d i d i
  | step {d d1 d2 : Bytes} {i i2 : Index} {a : Asset} :
      readFrame P key d = .frame a d1 → Reaches P key d1 (mapInsert i a.Path a) d2 i2 →
      Reaches P key d i d2 i2

/-! ## The wire format, in the words of the specification -/

/-- One frame: `identifier || DELIM || typeTag || DELIM || decimalLength(sealedPayload) ||
DELIM || sealedPayload`. -/
def frameBytes (identifier typeTag sealedPayload : Bytes) : Bytes :=
  identifier ++ [colon] ++ typeTag ++ [colon] ++ itoa sealedPayload.length ++ [colon]
    ++ sealedPayload

/-- The sealed payload of an asset under a nonce: `nonce ++ Seal(compress(content))`, the
content being what the byte provider holds under the identifier. -/
def sealedOf (P : Prims) (E : Env) (key : Bytes) (a : Asset) (nonce : Bytes) : Bytes :=
  nonce ++ P.gcmSeal key nonce ((P.gzip ((E.readFile a.Path).getD [])).getD [])

/-- The container: the frames of the assets in input order, nothing between or after them;
the nonces are taken from `rand` in order. -/
def wireFormat (P : Prims) (E : Env) (key : Bytes) : List Asset → Bytes → Bytes
  | [], _ => []
  | a :: assets, rand =>
    frameBytes a.Path a.Typ (sealedOf P E key a (rand.take nonceSize))
      ++ wireFormat P E key assets (rand.drop nonceSize)

/-- A length field in the sense of the specification: a non-empty run of ASCII digits. -/
def isDigits (s : Bytes) : Bool := !s.isEmpty && s.all (fun c => decide (48 ≤ c ∧ c ≤ 57))

/-- The length fields `strconv.Atoi` has a syntax for: an optional sign, then digits. -/
def isSignedDigits (s : Bytes) : Bool :=
  match s with
  | [] => false
  | c :: t => if c = 43 ∨ c = 45 then isDigits t else isDigits s

/-- Every entry of an index built by the loop is stored under its own `Path`. -/
def keysArePaths (m : Index) : Prop := ∀ k a, mapLookup m k = some a → a.Path = k

/-- The asset the reader is expected to give back for a packed asset: same identifier and
type tag, the content the byte provider holds under the identifier. -/
def sourceAsset (E : Env) (a : Asset) : Asset :=
  ⟨a.Path, a.Typ, (E.readFile a.Path).getD []⟩

/-- How the constructors end once the loop is at the head of an iteration with index
`idx` and that iteration does `st`, `next` being the result of the rest of the loop after
a completed frame. -/
def finishWith (idx : Index) (next : Asset → Bytes → Option (Outcome Index)) :
    Step → Option (Outcome AssetReader)
  | .stop => some (.ok ⟨idx⟩)
  | .fail e => some (.error e)
  | .panic => some .panic
  | .frame a rest => toReader (next a rest)

/-- What the constructors return for a frame whose payload is cut short by the end of the
stream: `rest` is everything after the third delimiter of the header. -/
def shortenedOutcome (P : Prims) (key : Bytes) (idx : Index) (path typeStr rest : Bytes) :
    Option (Outcome AssetReader) :=
  if rest.length < nonceSize then some (.error .notEnoughNonce)
  else
    match P.gcmOpen key (rest.take nonceSize) (rest.drop nonceSize) with
    | none => some (.error .decrypt)
    | some decrypted =>
      match P.gunzip decrypted with
      | .badHeader => some (.error .gzipReader)
      | .badBody => some (.error .decompress)
      | .data content => some (.ok ⟨mapInsert idx path ⟨path, typeStr, content⟩⟩)

/-- The ciphertext-and-tag part of the sealed payload of an asset under a nonce. -/
def cipherOf (P : Prims) (E : Env) (key : Bytes) (a : Asset) (nonce : Bytes) : Bytes :=
  P.gcmSeal key nonce ((P.gzip ((E.readFile a.Path).getD [])).getD [])

/-- The nonce of the `k`-th asset (counting from 0): the `k`-th block of `nonceSize` random
bytes. -/
def nonceAt (rand : Bytes) (k : Nat) : Bytes := (rand.drop (nonceSize * k)).take nonceSize

/-- Position, in the container of `pre ++ a :: post`, of the first ciphertext byte of the
frame of `a`: after the frames of `pre`, the header of `a` and the nonce. -/
def cipherOffset (P : Prims) (E : Env) (key : Bytes) (pre : List Asset) (a : Asset)
    (rand : Bytes) : Nat :=
  (wireFormat P E key pre rand).length
    + (a.Path ++ [colon] ++ a.Typ ++ [colon]
        ++ itoa (sealedOf P E key a (nonceAt rand pre.length)).length ++ [colon]).length
    + nonceSize

/-- The answer of `GetAsset` for the last frame, in stream order, with identifier `id`. -/
def lastFrame (frames : List Asset) (id : Bytes) : Outcome Asset :=
  match frames.reverse.find? (fun a => decide (a.Path = id)) with
  | some a => .ok a
  | none => .error .notFound

/-! ## A small instance of the primitives and test data, for evaluating the definitions -/

/-- Tag of the test AEAD: a checksum of key, nonce and text. -/
def testTag (key nonce text : Bytes) : Nat := (key.sum + nonce.sum + text.sum + 7) % 256

/-- Strips and checks the trailing tag of the test AEAD. -/
def testOpen (key nonce ct : Bytes) : Option Bytes :=
  match ct.getLast? with
  | none => none
  | some t => if t = testTag key nonce ct.dropLast then some ct.dropLast else none

/-- Test primitives: the sealed text is the plaintext followed by a one-byte tag; the
compressed form of `x` is `31 :: x`. -/
def testPrims : Prims where
  gcmSeal := fun key nonce pt => pt ++ [testTag key nonce pt]
  gcmOpen := testOpen
  gzip := fun x => some (31 :: x)
  gunzip := fun z =>
    match z with
    | [] => .badHeader
    | b :: x => if b = 31 then .data x else .badHeader

/-- A 16-byte key. -/
def testKey : Bytes := List.replicate 16 1

/-- Test environment: file `"a"` holds `0 1 2`, file `"b"` is empty, no other file exists;
every output path can be created. -/
def testEnv : Env where
  readFile := fun p => if p = [97] then some [0, 1, 2] else if p = [98] then some [] else none
  create := fun _ => true

/-- The two test assets: `"a"` of type `"t"` and `"b"` of type `"uv"`. -/
def testAssets : List Asset := [⟨[97], [116], []⟩, ⟨[98], [117, 118], []⟩]

/-- The container `PackAssets` writes for `testAssets` with the random bytes `0, 1, 2, ...`:
`a:t:17:` + 17 bytes, then `b:uv:14:` + 14 bytes. -/
def testContainer : Bytes :=
  [97, 58, 116, 58, 49, 55, 58, 0, 1, 2, 3, 4, 5, 6, 7, 8, 9, 10, 11, 31, 0, 1, 2, 123,
   98, 58, 117, 118, 58, 49, 52, 58, 12, 13, 14, 15, 16, 17, 18, 19, 20, 21, 22, 23, 31, 8]

/-- A one-frame stream whose header declares 99 payload bytes, followed by only 17: the
sealed payload of test asset `"a"`. -/
def testTruncated : Bytes :=
  [97, 58, 116, 58, 57, 57, 58, 0, 1, 2, 3, 4, 5, 6, 7, 8, 9, 10, 11, 31, 0, 1, 2, 123]

/-- The first frame of `testContainer` with the length field written `+17`. -/
def testPlusLength : Bytes :=
  [97, 58, 116, 58, 43, 49, 55, 58, 0, 1, 2, 3, 4, 5, 6, 7, 8, 9, 10, 11, 31, 0, 1, 2, 123]

/-- A frame whose length field is `1x`. -/
def testLetterLength : Bytes :=
  [97, 58, 116, 58, 49, 120, 58, 0, 1, 2, 3, 4, 5, 6, 7, 8, 9, 10, 11, 31, 0, 1, 2, 123]

/-- A test environment in which file `"f"` holds given bytes. -/
def testEnvWith (data : Bytes) : Env where
  readFile := fun p => if p = [102] then some data else none
  create := fun _ => true

/-- The container `PackAssets` writes, with the random bytes `0, 1, 2, ...`, for two assets
with the same identifier `"a"` and the type tags `"t"` and `"uv"`. -/
def testDuplicateContainer : Bytes :=
  [97, 58, 116, 58, 49, 55, 58, 0, 1, 2, 3, 4, 5, 6, 7, 8, 9, 10, 11, 31, 0, 1, 2, 123,
   97, 58, 117, 118, 58, 49, 55, 58, 12, 13, 14, 15, 16, 17, 18, 19, 20, 21, 22, 23, 31, 0,
   1, 2, 11]

/-- The stream `testContainer` with the tag of its second frame changed from 8 to 0. -/
def testBadSecondFrame : Bytes :=
  [97, 58, 116, 58, 49, 55, 58, 0, 1, 2, 3, 4, 5, 6, 7, 8, 9, 10, 11, 31, 0, 1, 2, 123,
   98, 58, 117, 118, 58, 49, 52, 58, 12, 13, 14, 15, 16, 17, 18, 19, 20, 21, 22, 23, 31, 0]

/-- The frame `a:t:0:`, which declares an empty payload. -/
def testZeroLength : Bytes := [97, 58, 116, 58, 48, 58]

/-- The value of a string of ASCII digits, read in base 10. -/
def decimalValue (s : Bytes) : Nat := s.foldl (fun acc c => acc * 10 + (c - 48)) 0

/-- The first frame of `testContainer` with the length field written `017`. -/
def testLeadingZero : Bytes :=
  [97, 58, 116, 58, 48, 49, 55, 58, 0, 1, 2, 3, 4, 5, 6, 7, 8, 9, 10, 11, 31, 0, 1, 2, 123]

/-- The first frame of `testContainer`, with the canonical length field `17`. -/
def testFirstFrame : Bytes :=
  [97, 58, 116, 58, 49, 55, 58, 0, 1, 2, 3, 4, 5, 6, 7, 8, 9, 10, 11, 31, 0, 1, 2, 123]

/-- A test environment whose only file has the identifier `a:b`, with empty content. -/
def testEnvColon : Env where
  readFile := fun p => if p = [97, 58, 98] then some [] else none
  create := fun _ => true

/-- The frame header `a:t:-5:`, whose length field is a negative number. -/
def testNegativeLength : Bytes := [97, 58, 116, 58, 45, 53, 58]

/-- The frame header `a:t:281474976710657:`, which declares `2^48 + 1` payload bytes, at the
end of the stream. -/
def testHugeLength : Bytes :=
  [97, 58, 116, 58, 50, 56, 49, 52, 55, 52, 57, 55, 54, 55, 49, 48, 54, 53, 55, 58]

/-- An identifier that contains the start of a frame: `p:t:33:`, twelve zero bytes and the
byte 31. -/
def testSmugglePath : Bytes :=
  [112, 58, 116, 58, 51, 51, 58, 0, 0, 0, 0, 0, 0, 0, 0, 0, 0, 0, 0, 31]

/-- The asset with the identifier `testSmugglePath` and the type tag `"u"`. -/
def testSmuggleAsset : Asset := ⟨testSmugglePath, [117], []⟩

/-- A test environment whose only file has the identifier `testSmugglePath` and holds the
byte 32. -/
def testEnvSmuggle : Env where
  readFile := fun p => if p = testSmugglePath then some [32] else none
  create := fun _ => true

/-- The container `PackAssets` writes for `testSmuggleAsset` with the random bytes
`0, 1, 2, ...`: the identifier, `:u:15:`, the nonce `0 .. 11` and the ciphertext and tag
`31 32 152`. -/
def testSmuggleContainer : Bytes :=
  [112, 58, 116, 58, 51, 51, 58, 0, 0, 0, 0, 0, 0, 0, 0, 0, 0, 0, 0, 31, 58, 117, 58, 49, 53,
   58, 0, 1, 2, 3, 4, 5, 6, 7, 8, 9, 10, 11, 31, 32, 152]

/-! ## Lemmas: `readUntilColon` -/

theorem readUntilColonAux_append (buf s r : Bytes) (hs : colon ∉ s) :
    readUntilColonAux buf (s ++ colon :: r) = some (buf ++ s, r) := by
  induction s generalizing buf with
  | nil => simp [readUntilColonAux]
  | cons b s ih =>
    have hb : b ≠ colon := fun h => hs (by simp [h])
    have hs2 : colon ∉ s := fun h => hs (by simp [h])
    simp [readUntilColonAux, hb, ih _ hs2]

theorem readUntilColon_append (s r : Bytes) (hs : colon ∉ s) :
    readUntilColon (s ++ colon :: r) = some (s, r) := by
  simpa [readUntilColon] using readUntilColonAux_append [] s r hs

theorem readUntilColonAux_none (buf r : Bytes) (hr : colon ∉ r) :
    readUntilColonAux buf r = none := by
  induction r generalizing buf with
  | nil => rfl
  | cons b r ih =>
    have hb : b ≠ colon := fun h => hr (by simp [h])
    have hr2 : colon ∉ r := fun h => hr (by simp [h])
    simp [readUntilColonAux, hb, ih _ hr2]

theorem readUntilColon_none (r : Bytes) (hr : colon ∉ r) : readUntilColon r = none :=
  readUntilColonAux_none [] r hr

theorem readUntilColonAux_some (buf r s r2 : Bytes)
    (h : readUntilColonAux buf r = some (s, r2)) :
    ∃ t, s = buf ++ t ∧ colon ∉ t ∧ r = t ++ colon :: r2 := by
  induction r generalizing buf with
  | nil => simp [readUntilColonAux] at h
  | cons b r ih =>
    by_cases hb : b = colon
    · simp [readUntilColonAux, hb] at h
      exact ⟨[], by simp [h.1], by simp, by simp [hb, h.2]⟩
    · simp [readUntilColonAux, hb] at h
      obtain ⟨t, h1, h2, h3⟩ := ih _ h
      refine ⟨b :: t, by simp [h1], ?_, by simp [h3]⟩
      simp only [List.mem_cons, not_or]
      exact ⟨fun h => hb h.symm, h2⟩

theorem readUntilColon_some (r s r2 : Bytes) (h : readUntilColon r = some (s, r2)) :
    colon ∉ s ∧ r = s ++ colon :: r2 := by
  obtain ⟨t, h1, h2, h3⟩ := readUntilColonAux_some [] r s r2 h
  simp at h1
  subst h1
  exact ⟨h2, h3⟩

theorem readUntilColon_eq_none_iff (r : Bytes) : readUntilColon r = none ↔ colon ∉ r := by
  constructor
  · intro h hmem
    obtain ⟨s, t, rfl⟩ := List.append_of_mem hmem
    have : ∃ s1 t1, s ++ colon :: t = s1 ++ colon :: t1 ∧ colon ∉ s1 := by
      clear h hmem
      induction s with
      | nil => exact ⟨[], t, rfl, by simp⟩
      | cons b s ih =>
        by_cases hb : b = colon
        · exact ⟨[], s ++ colon :: t, by simp [hb], by simp⟩
        · obtain ⟨s1, t1, h1, h2⟩ := ih
          refine ⟨b :: s1, t1, by simp [h1], ?_⟩
          simp only [List.mem_cons, not_or]
          exact ⟨fun h => hb h.symm, h2⟩
    obtain ⟨s1, t1, h1, h2⟩ := this
    rw [h1, readUntilColon_append _ _ h2] at h
    exact Option.noConfusion h
  · exact readUntilColon_none r

/-! ## Lemmas: decimal integers -/

theorem parseUintDigits_append (a : Nat) (xs ys : Bytes) :
    parseUintDigits a (xs ++ ys)
      = (parseUintDigits a xs).bind (fun a2 => parseUintDigits a2 ys) := by
  induction xs generalizing a with
  | nil => simp [parseUintDigits]
  | cons c xs ih =>
    by_cases hc : 48 ≤ c ∧ c ≤ 57
    · simp [parseUintDigits, hc, ih]
    · simp [parseUintDigits, hc]

theorem itoaAux_acc (f n : Nat) (acc : Bytes) : itoaAux f n acc = itoaAux f n [] ++ acc := by
  induction f generalizing n acc with
  | zero => simp [itoaAux]
  | succ f ih =>
    by_cases hn : n < 10
    · simp [itoaAux, hn]
    · simp only [itoaAux, hn, if_false]
      rw [ih (n / 10) ((48 + n % 10) :: acc), ih (n / 10) [48 + n % 10]]
      simp

theorem itoaAux_digits (f n : Nat) : ∀ c ∈ itoaAux f n [], 48 ≤ c ∧ c ≤ 57 := by
  induction f generalizing n with
  | zero => simp [itoaAux]
  | succ f ih =>
    intro c hc
    by_cases hn : n < 10
    · simp [itoaAux, hn] at hc
      omega
    · simp only [itoaAux, hn, if_false] at hc
      rw [itoaAux_acc] at hc
      rcases List.mem_append.1 hc with h | h
      · exact ih _ c h
      · simp at h
        omega

theorem itoaAux_parse (f n : Nat) (hn : n < 10 ^ f) (a : Nat) :
    ∃ k, parseUintDigits a (itoaAux f n []) = some (a * 10 ^ k + n) := by
  induction f generalizing n a with
  | zero =>
    have : n = 0 := by simpa using hn
    subst this
    exact ⟨0, by simp [itoaAux, parseUintDigits]⟩
  | succ f ih =>
    by_cases h10 : n < 10
    · refine ⟨1, ?_⟩
      have h1 : 48 ≤ 48 + n ∧ 48 + n ≤ 57 := by omega
      simp [itoaAux, h10, parseUintDigits, h1]
    · simp only [itoaAux, h10, if_false]
      have hdiv : n / 10 < 10 ^ f := by
        rw [Nat.div_lt_iff_lt_mul (by norm_num)]
        rw [pow_succ] at hn
        exact hn
      obtain ⟨k, hk⟩ := ih (n / 10) hdiv a
      refine ⟨k + 1, ?_⟩
      rw [itoaAux_acc, parseUintDigits_append, hk]
      have h1 : 48 ≤ 48 + n % 10 ∧ 48 + n % 10 ≤ 57 := by omega
      simp only [Option.some_bind, parseUintDigits, h1, and_self, if_true]
      congr 1
      have := Nat.div_add_mod n 10
      rw [pow_succ]
      simp only [Nat.add_sub_cancel_left]
      nlinarith

theorem itoa_ne_nil (n : Nat) : itoa n ≠ [] := by
  unfold itoa
  by_cases hn : n < 10
  · simp [itoaAux, hn]
  · simp only [itoaAux, hn, if_false]
    rw [itoaAux_acc]
    simp

theorem itoa_digits (n : Nat) : ∀ c ∈ itoa n, 48 ≤ c ∧ c ≤ 57 := itoaAux_digits (n + 1) n

theorem colon_not_mem_itoa (n : Nat) : colon ∉ itoa n := by
  intro h
  have := itoa_digits n colon h
  simp [colon] at this

theorem parseUintDigits_itoa (n : Nat) : parseUintDigits 0 (itoa n) = some n := by
  have hlt : n < 10 ^ (n + 1) :=
    lt_of_lt_of_le (Nat.lt_pow_self (by norm_num) n) (Nat.pow_le_pow_right (by norm_num) (by omega))
  obtain ⟨k, hk⟩ := itoaAux_parse (n + 1) n hlt 0
  simpa [itoa] using hk

theorem Atoi_itoa (n : Nat) (hn : n < 2 ^ 63) : Atoi (itoa n) = some (n : Int) := by
  have hne := itoa_ne_nil n
  have hd := itoa_digits n
  cases hs : itoa n with
  | nil => exact absurd hs hne
  | cons c t =>
    have hc := hd c (by simp [hs])
    have h43 : c ≠ 43 := by omega
    have h45 : c ≠ 45 := by omega
    have hp := parseUintDigits_itoa n
    rw [hs] at hp
    have hn2 : n < 9223372036854775808 := by norm_num at hn; exact hn
    simp [Atoi, h43, h45, hp, hn2]

/-! ## Lemmas: the frame loop -/

theorem payload_read (reader : Bytes) (n : Nat) :
    (match (readFull reader (List.replicate n 0)).2.2.1 with
      | none => some (readFull reader (List.replicate n 0)).1
      | some .EOF => sliceTo (readFull reader (List.replicate n 0)).1
          (readFull reader (List.replicate n 0)).2.1
      | some .ErrUnexpectedEOF => sliceTo (readFull reader (List.replicate n 0)).1
          (readFull reader (List.replicate n 0)).2.1) = some (reader.take n)
    ∧ (readFull reader (List.replicate n 0)).2.2.2 = reader.drop n := by
  by_cases h : n ≤ reader.length
  · have hm : min n reader.length = n := Nat.min_eq_left h
    simp [readFull, hm]
  · have h2 : reader.length < n := Nat.lt_of_not_le h
    have hm : min n reader.length = reader.length := Nat.min_eq_right (Nat.le_of_lt h2)
    have hne : reader.length ≠ n := Nat.ne_of_lt h2
    have ht : List.take n reader = reader := List.take_of_length_le (Nat.le_of_lt h2)
    have hd : List.drop n reader = [] := List.drop_of_length_le (Nat.le_of_lt h2)
    by_cases h0 : reader.length = 0
    · have : reader = [] := List.length_eq_zero.1 h0
      subst this
      have hn0 : ¬ (0 = n) := by simpa using hne
      simp [readFull, sliceTo, hn0]
    · simp [readFull, hm, hne, h0, sliceTo, ht, hd]

theorem readLoopBytes_succ (P : Prims) (key : Bytes) (fuel : Nat) (reader : Bytes)
    (assets : Index) :
    readLoopBytes P key (fuel + 1) reader assets
      = match readFrame P key reader with
        | .stop => some (.ok assets)
        | .fail e => some (.error e)
        | .panic => some .panic
        | .frame a rest => readLoopBytes P key fuel rest (mapInsert assets a.Path a) := by
  rw [readLoopBytes, readFrame]
  simp only [readPayload]
  cases h1 : readUntilColon reader with
  | none => rfl
  | some p1 =>
    obtain ⟨path, r1⟩ := p1
    simp only []
    cases h2 : readUntilColon r1 with
    | none => rfl
    | some p2 =>
      obtain ⟨typeStr, r2⟩ := p2
      simp only []
      cases h3 : readUntilColon r2 with
      | none => rfl
      | some p3 =>
        obtain ⟨sizeStr, r3⟩ := p3
        simp only []
        cases h4 : Atoi sizeStr with
        | none => rfl
        | some sizeInt =>
          simp only []
          by_cases hneg : sizeInt < 0 ∨ (maxAlloc : Int) < sizeInt
          · simp only [makeBytes, if_pos hneg]
          · simp only [makeBytes, if_neg hneg]
            obtain ⟨hp, hr⟩ := payload_read r3 sizeInt.toNat
            rw [hp, hr]
            simp only []
            by_cases hlen : (List.take sizeInt.toNat r3).length < nonceSize
            · simp only [hlen, if_true]
            · simp only [hlen, if_false]
              have h5 : sliceTo (List.take sizeInt.toNat r3) nonceSize
                  = some ((List.take sizeInt.toNat r3).take nonceSize) := by
                simp only [sliceTo, ite_eq_left_iff]
                intro h
                omega
              have h6 : sliceFrom (List.take sizeInt.toNat r3) nonceSize
                  = some ((List.take sizeInt.toNat r3).drop nonceSize) := by
                simp only [sliceFrom, ite_eq_left_iff]
                intro h
                omega
              rw [h5, h6]
              simp only []
              cases h7 : P.gcmOpen key (List.take nonceSize (List.take sizeInt.toNat r3))
                  (List.drop nonceSize (List.take sizeInt.toNat r3)) with
              | none => rfl
              | some decrypted =>
                simp only []
                cases h8 : P.gunzip decrypted <;> rfl

theorem readLoopFile_succ (P : Prims) (key : Bytes) (fuel : Nat) (reader : Bytes)
    (assets : Index) :
    readLoopFile P key (fuel + 1) reader assets
      = match readFrame P key reader with
        | .stop => some (.ok assets)
        | .fail e => some (.error e)
        | .panic => some .panic
        | .frame a rest => readLoopFile P key fuel rest (mapInsert assets a.Path a) := by
  rw [readLoopFile, readFrame]
  simp only [readPayload]
  cases h1 : readUntilColon reader with
  | none => rfl
  | some p1 =>
    obtain ⟨path, r1⟩ := p1
    simp only []
    cases h2 : readUntilColon r1 with
    | none => rfl
    | some p2 =>
      obtain ⟨typeStr, r2⟩ := p2
      simp only []
      cases h3 : readUntilColon r2 with
      | none => rfl
      | some p3 =>
        obtain ⟨sizeStr, r3⟩ := p3
        simp only []
        cases h4 : Atoi sizeStr with
        | none => rfl
        | some sizeInt =>
          simp only []
          by_cases hneg : sizeInt < 0 ∨ (maxAlloc : Int) < sizeInt
          · simp only [makeBytes, if_pos hneg]
          · simp only [makeBytes, if_neg hneg]
            obtain ⟨hp, hr⟩ := payload_read r3 sizeInt.toNat
            rw [hp, hr]
            simp only []
            by_cases hlen : (List.take sizeInt.toNat r3).length < nonceSize
            · simp only [hlen, if_true]
            · simp only [hlen, if_false]
              have h5 : sliceTo (List.take sizeInt.toNat r3) nonceSize
                  = some ((List.take sizeInt.toNat r3).take nonceSize) := by
                simp only [sliceTo, ite_eq_left_iff]
                intro h
                omega
              have h6 : sliceFrom (List.take sizeInt.toNat r3) nonceSize
                  = some ((List.take sizeInt.toNat r3).drop nonceSize) := by
                simp only [sliceFrom, ite_eq_left_iff]
                intro h
                omega
              rw [h5, h6]
              simp only []
              cases h7 : P.gcmOpen key (List.take nonceSize (List.take sizeInt.toNat r3))
                  (List.drop nonceSize (List.take sizeInt.toNat r3)) with
              | none => rfl
              | some decrypted =>
                simp only []
                cases h8 : P.gunzip decrypted <;> rfl

theorem readLoopFile_eq (P : Prims) (key : Bytes) (fuel : Nat) (reader : Bytes)
    (assets : Index) :
    readLoopFile P key fuel reader assets = readLoopBytes P key fuel reader assets := by
  induction fuel generalizing reader assets with
  | zero => rfl
  | succ f ih =>
    rw [readLoopFile_succ, readLoopBytes_succ]
    cases readFrame P key reader with
    | stop => rfl
    | fail e => rfl
    | panic => rfl
    | frame a rest => exact ih rest _

/-- Inversion of a completed iteration: the stream starts with a header whose three fields
are free of the delimiter, the length field parses, the payload has at least nonce-size
bytes, opens and decompresses. -/
theorem readFrame_frame_inv (P : Prims) (key d : Bytes) (a : Asset) (rest : Bytes)
    (h : readFrame P key d = .frame a rest) :
    ∃ (sizeStr r3 : Bytes) (sizeInt : Int) (decrypted : Bytes),
      d = a.Path ++ colon :: (a.Typ ++ colon :: (sizeStr ++ colon :: r3))
      ∧ colon ∉ a.Path ∧ colon ∉ a.Typ ∧ colon ∉ sizeStr
      ∧ Atoi sizeStr = some sizeInt ∧ 0 ≤ sizeInt
      ∧ nonceSize ≤ (r3.take sizeInt.toNat).length
      ∧ P.gcmOpen key ((r3.take sizeInt.toNat).take nonceSize)
          ((r3.take sizeInt.toNat).drop nonceSize) = some decrypted
      ∧ P.gunzip decrypted = .data a.Content
      ∧ rest = r3.drop sizeInt.toNat := by
  rw [readFrame] at h
  simp only [readPayload] at h
  cases h1 : readUntilColon d with
  | none => simp [h1] at h
  | some p1 =>
    obtain ⟨path, r1⟩ := p1
    simp only [h1] at h
    cases h2 : readUntilColon r1 with
    | none => simp [h2] at h
    | some p2 =>
      obtain ⟨typeStr, r2⟩ := p2
      simp only [h2] at h
      cases h3 : readUntilColon r2 with
      | none => simp [h3] at h
      | some p3 =>
        obtain ⟨sizeStr, r3⟩ := p3
        simp only [h3] at h
        cases h4 : Atoi sizeStr with
        | none => simp [h4] at h
        | some sizeInt =>
          simp only [h4] at h
          by_cases hneg : sizeInt < 0 ∨ (maxAlloc : Int) < sizeInt
          · rw [if_pos hneg] at h
            exact Step.noConfusion h
          · rw [if_neg hneg] at h
            by_cases hlen : (List.take sizeInt.toNat r3).length < nonceSize
            · rw [if_pos hlen] at h
              exact Step.noConfusion h
            · rw [if_neg hlen] at h
              cases h7 : P.gcmOpen key (List.take nonceSize (List.take sizeInt.toNat r3))
                  (List.drop nonceSize (List.take sizeInt.toNat r3)) with
              | none => simp [h7] at h
              | some decrypted =>
                simp only [h7] at h
                cases h8 : P.gunzip decrypted with
                | badHeader => simp [h8] at h
                | badBody => simp [h8] at h
                | data content =>
                  simp only [h8, Step.frame.injEq] at h
                  obtain ⟨ha, hr⟩ := h
                  subst ha
                  obtain ⟨c1, e1⟩ := readUntilColon_some _ _ _ h1
                  obtain ⟨c2, e2⟩ := readUntilColon_some _ _ _ h2
                  obtain ⟨c3, e3⟩ := readUntilColon_some _ _ _ h3
                  refine ⟨sizeStr, r3, sizeInt, decrypted, ?_, c1, c2, c3, h4,
                    Int.not_lt.1 (fun hx => hneg (Or.inl hx)), Nat.le_of_not_lt hlen, h7, h8,
                    hr.symm⟩
                  rw [e1, e2, e3]

theorem readFrame_frame_length (P : Prims) (key d : Bytes) (a : Asset) (rest : Bytes)
    (h : readFrame P key d = .frame a rest) : rest.length + 3 ≤ d.length := by
  obtain ⟨sizeStr, r3, sizeInt, decrypted, hd, -, -, -, -, -, -, -, -, hr⟩ :=
    readFrame_frame_inv P key d a rest h
  subst hd hr
  simp only [List.length_append, List.length_cons, List.length_drop]
  omega

/-- The result of the loop does not depend on the fuel once there is more of it than
bytes left. -/
theorem readLoopBytes_fuel (P : Prims) (key : Bytes) (f1 f2 : Nat) (d : Bytes) (i : Index)
    (h1 : d.length < f1) (h2 : d.length < f2) :
    readLoopBytes P key f1 d i = readLoopBytes P key f2 d i := by
  induction f1 generalizing f2 d i with
  | zero => omega
  | succ k ih =>
    cases f2 with
    | zero => omega
    | succ m =>
      rw [readLoopBytes_succ, readLoopBytes_succ]
      cases hf : readFrame P key d with
      | stop => rfl
      | fail e => rfl
      | panic => rfl
      | frame a rest =>
        have := readFrame_frame_length P key d a rest hf
        exact ih m rest _ (by omega) (by omega)

/-- With more fuel than bytes left the loop finishes. -/
theorem readLoopBytes_total (P : Prims) (key : Bytes) (f : Nat) (d : Bytes) (i : Index)
    (h : d.length < f) : ∃ o, readLoopBytes P key f d i = some o := by
  induction f generalizing d i with
  | zero => omega
  | succ k ih =>
    rw [readLoopBytes_succ]
    cases hf : readFrame P key d with
    | stop => exact ⟨_, rfl⟩
    | fail e => exact ⟨_, rfl⟩
    | panic => exact ⟨_, rfl⟩
    | frame a rest =>
      have := readFrame_frame_length P key d a rest hf
      exact ih rest _ (by omega)

theorem reaches_loop (P : Prims) (key : Bytes) (d d2 : Bytes) (i i2 : Index)
    (h : Reaches P key d i d2 i2) (f : Nat) (hf : d.length < f) :
    readLoopBytes P key f d i = readLoopBytes P key (d2.length + 1) d2 i2 := by
  induction h generalizing f with
  | refl d i => exact readLoopBytes_fuel P key _ _ d i hf (by omega)
  | step hstep _ ih =>
    cases f with
    | zero => omega
    | succ k =>
      rw [readLoopBytes_succ, hstep]
      have := readFrame_frame_length P key _ _ _ hstep
      exact ih k (by omega)

theorem reaches_trans (P : Prims) (key : Bytes) (d d1 d2 : Bytes) (i i1 i2 : Index)
    (h1 : Reaches P key d i d1 i1) (h2 : Reaches P key d1 i1 d2 i2) :
    Reaches P key d i d2 i2 := by
  induction h1 with
  | refl d i => exact h2
  | step hstep _ ih => exact Reaches.step hstep (ih h2)

/-- The index a successful loop returns is the fold of the map writes over the decoded
frames, in stream order. -/
theorem readLoopBytes_ok_decode (P : Prims) (key : Bytes) (f : Nat) (d : Bytes)
    (i idx : Index) (h : readLoopBytes P key f d i = some (.ok idx)) :
    idx = (decodeFrames P key f d).foldl (fun m a => mapInsert m a.Path a) i := by
  induction f generalizing d i with
  | zero => simp [readLoopBytes] at h
  | succ k ih =>
    rw [readLoopBytes_succ] at h
    rw [decodeFrames]
    cases hf : readFrame P key d with
    | stop => simp [hf] at h; simp [h]
    | fail e => simp [hf] at h
    | panic => simp [hf] at h
    | frame a rest =>
      simp only [hf] at h
      simpa using ih rest _ h

/-! ## Lemmas: a frame with a well-formed header -/

theorem maxAlloc_lt : maxAlloc < 2 ^ 63 := by
  norm_num [maxAlloc]

theorem readFrame_header (P : Prims) (key p t s r3 : Bytes) (hp : colon ∉ p)
    (ht : colon ∉ t) (hs : colon ∉ s) :
    readFrame P key (p ++ colon :: (t ++ colon :: (s ++ colon :: r3)))
      = match Atoi s with
        | none => .fail .convSize
        | some sizeInt => readPayload P key p t sizeInt r3 := by
  rw [readFrame, readUntilColon_append _ _ hp]
  simp only []
  rw [readUntilColon_append _ _ ht]
  simp only []
  rw [readUntilColon_append _ _ hs]

theorem frameBytes_append (p t sealed rest : Bytes) :
    frameBytes p t sealed ++ rest
      = p ++ colon :: (t ++ colon :: (itoa sealed.length ++ colon :: (sealed ++ rest))) := by
  simp [frameBytes]

/-- The payload step when the stream holds at least the declared number of bytes. -/
theorem readPayload_exact (P : Prims) (key p t sealed rest : Bytes)
    (hmax : sealed.length ≤ maxAlloc) :
    readPayload P key p t (sealed.length : Int) (sealed ++ rest)
      = if sealed.length < nonceSize then .fail .notEnoughNonce
        else
          match P.gcmOpen key (sealed.take nonceSize) (sealed.drop nonceSize) with
          | none => .fail .decrypt
          | some decrypted =>
            match P.gunzip decrypted with
            | .badHeader => .fail .gzipReader
            | .badBody => .fail .decompress
            | .data content => .frame ⟨p, t, content⟩ rest := by
  have h0 : ¬ ((sealed.length : Int) < 0 ∨ (maxAlloc : Int) < (sealed.length : Int)) := by
    omega
  have h1 : (sealed ++ rest).take sealed.length = sealed := by simp
  have h2 : (sealed ++ rest).drop sealed.length = rest := by simp
  rw [readPayload, if_neg h0, Int.toNat_ofNat, h1, h2]

/-- One iteration on a frame of the wire format. -/
theorem readFrame_frameBytes (P : Prims) (key p t sealed rest : Bytes) (hp : colon ∉ p)
    (ht : colon ∉ t) (hlen : sealed.length ≤ maxAlloc) :
    readFrame P key (frameBytes p t sealed ++ rest)
      = if sealed.length < nonceSize then .fail .notEnoughNonce
        else
          match P.gcmOpen key (sealed.take nonceSize) (sealed.drop nonceSize) with
          | none => .fail .decrypt
          | some decrypted =>
            match P.gunzip decrypted with
            | .badHeader => .fail .gzipReader
            | .badBody => .fail .decompress
            | .data content => .frame ⟨p, t, content⟩ rest := by
  rw [frameBytes_append, readFrame_header P key p t _ _ hp ht (colon_not_mem_itoa _),
    Atoi_itoa _ (Nat.lt_of_le_of_lt hlen maxAlloc_lt)]
  exact readPayload_exact P key p t sealed rest hlen

/-! ## Lemmas: the map -/

theorem mapLookup_filter_ne (m : Index) (k k2 : Bytes) (h : k ≠ k2) :
    mapLookup (m.filter (fun e => decide (e.1 ≠ k))) k2 = mapLookup m k2 := by
  induction m with
  | nil => rfl
  | cons e m ih =>
    obtain ⟨k1, v⟩ := e
    simp only [decide_not] at ih
    by_cases h1 : k1 = k
    · subst h1
      simp [List.filter, mapLookup, h, ih]
    · simp [List.filter, mapLookup, h1, ih]

theorem mapLookup_insert (m : Index) (k k2 : Bytes) (v : Asset) :
    mapLookup (mapInsert m k v) k2 = if k = k2 then some v else mapLookup m k2 := by
  by_cases h : k = k2
  · simp [mapInsert, mapLookup, h]
  · simp only [mapInsert, mapLookup, h, if_false]
    exact mapLookup_filter_ne m k k2 h

/-- Looking a key up after a run of map writes: the last write under that key, or the
earlier value when there is none. -/
theorem mapLookup_foldl (frames : List Asset) (i : Index) (k : Bytes) :
    mapLookup (frames.foldl (fun m a => mapInsert m a.Path a) i) k
      = match frames.reverse.find? (fun a => decide (a.Path = k)) with
        | some a => some a
        | none => mapLookup i k := by
  induction frames generalizing i with
  | nil => simp
  | cons a frames ih =>
    rw [List.foldl_cons, ih, List.reverse_cons, List.find?_append]
    cases hf : frames.reverse.find? (fun a => decide (a.Path = k)) with
    | some b => simp
    | none =>
      by_cases hk : a.Path = k
      · simp [hk, mapLookup_insert]
      · simp [hk, mapLookup_insert]

theorem keysArePaths_insert (m : Index) (a : Asset) (h : keysArePaths m) :
    keysArePaths (mapInsert m a.Path a) := by
  intro k b hb
  rw [mapLookup_insert] at hb
  by_cases hk : a.Path = k
  · simp [hk] at hb
    rw [← hb]
    exact hk
  · simp [hk] at hb
    exact h k b hb

/-! ## Lemmas: the writer -/

theorem wireFormat_length_cons (P : Prims) (E : Env) (key : Bytes) (a : Asset)
    (assets : List Asset) (rand : Bytes) :
    (wireFormat P E key (a :: assets) rand).length
      = (frameBytes a.Path a.Typ (sealedOf P E key a (rand.take nonceSize))).length
        + (wireFormat P E key assets (rand.drop nonceSize)).length := by
  simp [wireFormat]

theorem sealed_le_frameBytes (p t sealed : Bytes) :
    sealed.length ≤ (frameBytes p t sealed).length := by
  simp only [frameBytes, List.length_append]
  omega

/-- What the writer loop leaves in the file when it returns no error. -/
theorem packLoop_ok (P : Prims) (E : Env) (key : Bytes) (assets : List Asset)
    (rand out w : Bytes) (h : packLoop P E key assets rand out = (none, w)) :
    w = out ++ wireFormat P E key assets rand
      ∧ (∀ a ∈ assets, ∃ c z, E.readFile a.Path = some c ∧ P.gzip c = some z)
      ∧ nonceSize * assets.length ≤ rand.length := by
  induction assets generalizing rand out with
  | nil =>
    simp only [packLoop, Prod.mk.injEq, true_and] at h
    simp [wireFormat, h]
  | cons a assets ih =>
    rw [packLoop] at h
    cases hc : E.readFile a.Path with
    | none => simp [openFile, hc] at h
    | some c =>
      simp only [openFile, hc] at h
      cases hz : P.gzip c with
      | none => simp [compressAsset, hz] at h
      | some z =>
        simp only [compressAsset, hz] at h
        by_cases hr : rand.length < nonceSize
        · simp [hr] at h
        · rw [if_neg hr] at h
          obtain ⟨h1, h2, h3⟩ := ih _ _ h
          refine ⟨?_, ?_, ?_⟩
          · rw [h1]
            simp [wireFormat, frameBytes, sealedOf, hc, hz]
          · intro b hb
            rcases List.mem_cons.1 hb with rfl | hb
            · exact ⟨c, z, hc, hz⟩
            · exact h2 b hb
          · simp only [List.length_drop, List.length_cons] at h3 ⊢
            have : nonceSize ≤ rand.length := Nat.le_of_not_lt hr
            rw [Nat.mul_succ]
            omega

theorem PackAssets_ok (P : Prims) (E : Env) (rand : Bytes) (assets : List Asset)
    (outputPath key : Bytes) (h : (PackAssets P E rand assets outputPath key).err = none) :
    (PackAssets P E rand assets outputPath key).file = some (wireFormat P E key assets rand)
      ∧ (∀ a ∈ assets, ∃ c z, E.readFile a.Path = some c ∧ P.gzip c = some z)
      ∧ nonceSize * assets.length ≤ rand.length := by
  unfold PackAssets at h ⊢
  cases hk : newGCM key with
  | error e => simp [hk] at h
  | ok u =>
    simp only [hk] at h ⊢
    by_cases hc : E.create outputPath = false
    · simp [hc] at h
    · have hc2 : E.create outputPath = true := by simpa using hc
      simp only [hc2, Bool.true_eq_false, if_false] at h ⊢
      have hp : packLoop P E key assets rand []
          = (none, (packLoop P E key assets rand []).2) := by
        rw [← h]
      obtain ⟨h1, h2, h3⟩ := packLoop_ok P E key assets rand [] _ hp
      refine ⟨?_, h2, h3⟩
      rw [h1]
      simp

/-! ## Claim C4 -/

/-- C4 (writer wire format): whenever `PackAssets` returns no error, the output file holds
exactly `wireFormat`: the frames `identifier ++ ":" ++ typeTag ++ ":" ++ decimal(len(sealed))
++ ":" ++ sealed` of the assets in input order, with `sealed = nonce ++ Seal(compress(content))`
and the length field the number of sealed bytes, nothing between the frames or after the last
one; every asset had readable content that compressed, and an empty asset list gives the
empty stream. -/
theorem C4_writer_wire_format (P : Prims) (E : Env) (rand : Bytes) (assets : List Asset)
    (outputPath key : Bytes) (h : (PackAssets P E rand assets outputPath key).err = none) :
    (PackAssets P E rand assets outputPath key).file = some (wireFormat P E key assets rand)
      ∧ (∀ a ∈ assets, ∃ c z, E.readFile a.Path = some c ∧ compressAsset P c = .ok z
          ∧ sealedOf P E key a = fun nonce => nonce ++ P.gcmSeal key nonce z)
      ∧ (assets = [] → (PackAssets P E rand assets outputPath key).file = some []) := by
  obtain ⟨h1, h2, _⟩ := PackAssets_ok P E rand assets outputPath key h
  refine ⟨h1, ?_, ?_⟩
  · intro a ha
    obtain ⟨c, z, hc, hz⟩ := h2 a ha
    refine ⟨c, z, hc, by simp [compressAsset, hz], ?_⟩
    funext nonce
    simp [sealedOf, hc, hz]
  · intro he
    rw [h1, he]
    rfl

/-- Witness for C4: two assets packed with the test primitives. -/
theorem C4_writer_wire_format_witness :
    (PackAssets testPrims testEnv (List.range 30) testAssets [111] testKey).file
      = some testContainer :=
  (C4_writer_wire_format testPrims testEnv (List.range 30) testAssets [111] testKey
    (by decide)).1.trans (by decide)

/-! ## Reading back what the writer wrote -/

/-- One iteration on the frame of a packed asset, under the round-trip assumptions on the
primitives. -/
theorem readFrame_packed (P : Prims) (E : Env) (key : Bytes) (a : Asset) (rand rest : Bytes)
    (hopen : ∀ nonce pt, nonce.length = nonceSize →
      P.gcmOpen key nonce (P.gcmSeal key nonce pt) = some pt)
    (hgz : ∀ x z, compressAsset P x = .ok z → P.gunzip z = .data x)
    (hp : colon ∉ a.Path) (ht : colon ∉ a.Typ)
    (hfile : ∃ c z, E.readFile a.Path = some c ∧ P.gzip c = some z)
    (hrand : nonceSize ≤ rand.length)
    (hlen : (sealedOf P E key a (rand.take nonceSize)).length ≤ maxAlloc) :
    readFrame P key (frameBytes a.Path a.Typ (sealedOf P E key a (rand.take nonceSize)) ++ rest)
      = .frame (sourceAsset E a) rest := by
  obtain ⟨c, z, hc, hz⟩ := hfile
  have hn : (rand.take nonceSize).length = nonceSize := by
    simp only [List.length_take]
    omega
  rw [readFrame_frameBytes P key _ _ _ rest hp ht hlen]
  have h12 : ¬ ((sealedOf P E key a (rand.take nonceSize)).length < nonceSize) := by
    simp only [sealedOf, List.length_append, hn]
    omega
  rw [if_neg h12]
  have htake : (sealedOf P E key a (rand.take nonceSize)).take nonceSize
      = rand.take nonceSize := by
    rw [sealedOf, List.take_append_of_le_length (Nat.le_of_eq hn.symm), List.take_of_length_le
      (Nat.le_of_eq hn)]
  have hdrop : (sealedOf P E key a (rand.take nonceSize)).drop nonceSize
      = P.gcmSeal key (rand.take nonceSize) z := by
    rw [sealedOf, hc]
    simp only [Option.getD_some, hz]
    rw [List.drop_append_of_le_length (Nat.le_of_eq hn.symm), List.drop_of_length_le
      (Nat.le_of_eq hn)]
    rfl
  rw [htake, hdrop, hopen _ _ hn]
  simp only []
  rw [hgz c z (by simp [compressAsset, hz])]
  simp [sourceAsset, hc]

/-- The loop walks through the frames of a packed container, one map write for each asset,
in input order. -/
theorem reaches_wireFormat (P : Prims) (E : Env) (key : Bytes) (assets : List Asset)
    (rand rest : Bytes) (idx : Index)
    (hopen : ∀ nonce pt, nonce.length = nonceSize →
      P.gcmOpen key nonce (P.gcmSeal key nonce pt) = some pt)
    (hgz : ∀ x z, compressAsset P x = .ok z → P.gunzip z = .data x)
    (hcolon : ∀ a ∈ assets, colon ∉ a.Path ∧ colon ∉ a.Typ)
    (hfile : ∀ a ∈ assets, ∃ c z, E.readFile a.Path = some c ∧ P.gzip c = some z)
    (hrand : nonceSize * assets.length ≤ rand.length)
    (hlen : (wireFormat P E key assets rand).length ≤ maxAlloc) :
    Reaches P key (wireFormat P E key assets rand ++ rest) idx rest
      ((assets.map (sourceAsset E)).foldl (fun m a => mapInsert m a.Path a) idx) := by
  induction assets generalizing rand idx with
  | nil => exact Reaches.refl _ _
  | cons a assets ih =>
    have hl := wireFormat_length_cons P E key a assets rand
    have hs := sealed_le_frameBytes a.Path a.Typ (sealedOf P E key a (rand.take nonceSize))
    have hr : nonceSize ≤ rand.length ∧ nonceSize * assets.length ≤ (rand.drop nonceSize).length := by
      simp only [List.length_cons, Nat.mul_succ, List.length_drop] at hrand ⊢
      omega
    have hstep := readFrame_packed P E key a rand
      (wireFormat P E key assets (rand.drop nonceSize) ++ rest) hopen hgz
      (hcolon a (by simp)).1 (hcolon a (by simp)).2 (hfile a (by simp)) hr.1 (by omega)
    have hrest := ih (rand.drop nonceSize) (mapInsert idx (sourceAsset E a).Path (sourceAsset E a))
      (fun b hb => hcolon b (by simp [hb])) (fun b hb => hfile b (by simp [hb])) hr.2
      (by omega)
    rw [wireFormat, List.append_assoc]
    exact Reaches.step hstep hrest

/-- The constructor succeeds with index `idx` when the loop comes back to its head at the
end of the stream with that index. -/
theorem NewAssetReaderFromBytes_of_reaches (P : Prims) (data key : Bytes) (idx : Index)
    (hkey : key.length = 16 ∨ key.length = 24 ∨ key.length = 32)
    (h : Reaches P key data [] [] idx) :
    NewAssetReaderFromBytes P data key = some (.ok ⟨idx⟩) := by
  have hl := reaches_loop P key data [] [] idx h (data.length + 1) (by omega)
  simp only [NewAssetReaderFromBytes, newGCM, hkey, if_true]
  rw [hl]
  rfl

theorem find_last_of_nodup (E : Env) (assets : List Asset)
    (hnodup : (assets.map (fun a => a.Path)).Nodup) (a : Asset) (ha : a ∈ assets) :
    (assets.map (sourceAsset E)).reverse.find? (fun b => decide (b.Path = a.Path))
      = some (sourceAsset E a) := by
  induction assets with
  | nil => simp at ha
  | cons b assets ih =>
    simp only [List.map_cons, List.nodup_cons] at hnodup
    rw [List.map_cons, List.reverse_cons, List.find?_append]
    rcases List.mem_cons.1 ha with rfl | hmem
    · have hnone : (assets.map (sourceAsset E)).reverse.find?
          (fun b => decide (b.Path = a.Path)) = none := by
        rw [List.find?_eq_none]
        intro x hx
        simp only [List.mem_reverse, List.mem_map] at hx
        obtain ⟨y, hy, rfl⟩ := hx
        simp only [sourceAsset, decide_eq_true_eq]
        intro hxy
        exact hnodup.1 (List.mem_map.2 ⟨y, hy, hxy⟩)
      rw [hnone]
      simp [sourceAsset]
    · rw [ih hnodup.2 hmem]
      rfl

theorem testPrims_open_seal (key nonce pt : Bytes) :
    testPrims.gcmOpen key nonce (testPrims.gcmSeal key nonce pt) = some pt := by
  simp [testPrims, testOpen]

theorem testPrims_gunzip_gzip (x z : Bytes) (h : compressAsset testPrims x = .ok z) :
    testPrims.gunzip z = .data x := by
  simp only [compressAsset, testPrims, Except.ok.injEq] at h
  subst h
  simp [testPrims]

/-! ## Claim C1 -/

/-- C1 (round trip): for a key of length 16, 24 or 32, any random bytes for the nonces and
any asset list with pairwise distinct identifiers and `':'`-free identifiers and type tags,
if `gcm.Open` inverts `gcm.Seal` under the key and gunzip inverts `compressAsset`, then the
stream written by a successful `PackAssets` (a Go byte slice, so of at most `maxAlloc`
bytes) is accepted by `NewAssetReaderFromBytes` with the same key, and `GetAsset` returns for every
asset of the list an `Asset` with its identifier, its type tag and the source content (empty
content included). -/
theorem C1_round_trip (P : Prims) (E : Env) (rand : Bytes) (assets : List Asset)
    (outputPath key written : Bytes)
    (hkey : key.length = 16 ∨ key.length = 24 ∨ key.length = 32)
    (hopen : ∀ nonce pt, nonce.length = nonceSize →
      P.gcmOpen key nonce (P.gcmSeal key nonce pt) = some pt)
    (hgz : ∀ x z, compressAsset P x = .ok z → P.gunzip z = .data x)
    (hnodup : (assets.map (fun a => a.Path)).Nodup)
    (hcolon : ∀ a ∈ assets, colon ∉ a.Path ∧ colon ∉ a.Typ)
    (hpack : PackAssets P E rand assets outputPath key = ⟨none, some written⟩)
    (hsize : written.length ≤ maxAlloc) :
    ∃ r, NewAssetReaderFromBytes P written key = some (.ok r)
      ∧ ∀ a ∈ assets, ∃ c, E.readFile a.Path = some c
          ∧ (GetAsset r a.Path).1 = .ok ⟨a.Path, a.Typ, c⟩ := by
  have herr : (PackAssets P E rand assets outputPath key).err = none := by rw [hpack]
  obtain ⟨h1, h2, h3⟩ := PackAssets_ok P E rand assets outputPath key herr
  rw [hpack] at h1
  simp only [Option.some.injEq] at h1
  subst h1
  have hreach := reaches_wireFormat P E key assets rand [] [] hopen hgz hcolon h2 h3 hsize
  rw [List.append_nil] at hreach
  refine ⟨_, NewAssetReaderFromBytes_of_reaches P _ key _ hkey hreach, ?_⟩
  intro a ha
  obtain ⟨c, z, hc, -⟩ := h2 a ha
  refine ⟨c, hc, ?_⟩
  have hl := mapLookup_foldl (assets.map (sourceAsset E)) [] a.Path
  rw [find_last_of_nodup E assets hnodup a ha] at hl
  simp only [GetAsset]
  rw [hl]
  simp [sourceAsset, hc]

/-- Witness for C1: the two test assets, one of them with empty content. -/
theorem C1_round_trip_witness :
    ∃ r, NewAssetReaderFromBytes testPrims testContainer testKey = some (.ok r)
      ∧ ∀ a ∈ testAssets, ∃ c, testEnv.readFile a.Path = some c
          ∧ (GetAsset r a.Path).1 = .ok ⟨a.Path, a.Typ, c⟩ :=
  C1_round_trip testPrims testEnv (List.range 30) testAssets [111] testKey testContainer
    (by decide) (fun nonce pt _ => testPrims_open_seal testKey nonce pt)
    testPrims_gunzip_gzip (by decide) (by decide) (by decide) (by decide)

/-! ## The constructors from a loop state -/

theorem readLoopBytes_nil (P : Prims) (key : Bytes) (f : Nat) (idx : Index) :
    readLoopBytes P key (f + 1) [] idx = some (.ok idx) := by
  rw [readLoopBytes_succ]
  rfl

/-- The file constructor is the byte constructor on the contents of the file. -/
theorem NewAssetReader_eq (P : Prims) (E : Env) (filePath data key : Bytes)
    (hfile : E.readFile filePath = some data) :
    NewAssetReader P E filePath key = NewAssetReaderFromBytes P data key := by
  simp only [NewAssetReader, NewAssetReaderFromBytes, hfile]
  cases newGCM key with
  | error e => rfl
  | ok u =>
    simp only []
    rw [readLoopFile_eq]

/-- The result of the constructor, read off the iteration at which the loop has arrived. -/
theorem NewAssetReaderFromBytes_at (P : Prims) (data key rest : Bytes) (idx : Index)
    (hkey : key.length = 16 ∨ key.length = 24 ∨ key.length = 32)
    (h : Reaches P key data [] rest idx) :
    NewAssetReaderFromBytes P data key
      = finishWith idx
          (fun a rest2 => readLoopBytes P key (rest2.length + 1) rest2 (mapInsert idx a.Path a))
          (readFrame P key rest) := by
  have hl := reaches_loop P key data rest [] idx h (data.length + 1) (by omega)
  simp only [NewAssetReaderFromBytes, newGCM, hkey, if_true]
  rw [hl, readLoopBytes_succ]
  cases hf : readFrame P key rest with
  | stop => rfl
  | fail e => rfl
  | panic => rfl
  | frame a rest2 =>
    have := readFrame_frame_length P key rest a rest2 hf
    simp only [finishWith]
    rw [readLoopBytes_fuel P key rest.length (rest2.length + 1) rest2 _ (by omega) (by omega)]

/-- The payload step when the header declares more bytes than the stream still holds. -/
theorem readPayload_short (P : Prims) (key p t r3 : Bytes) (n : Int)
    (hshort : (r3.length : Int) < n) (hmax : n ≤ (maxAlloc : Int)) :
    readPayload P key p t n r3
      = if r3.length < nonceSize then .fail .notEnoughNonce
        else
          match P.gcmOpen key (r3.take nonceSize) (r3.drop nonceSize) with
          | none => .fail .decrypt
          | some decrypted =>
            match P.gunzip decrypted with
            | .badHeader => .fail .gzipReader
            | .badBody => .fail .decompress
            | .data content => .frame ⟨p, t, content⟩ [] := by
  have h0 : ¬ (n < 0 ∨ (maxAlloc : Int) < n) := by omega
  have hle : r3.length ≤ n.toNat := by omega
  rw [readPayload, if_neg h0, List.take_of_length_le hle, List.drop_of_length_le hle]

/-! ## Claim C2 -/

/-- C2, counterexample: the header of `testTruncated` declares 99 payload bytes and only 17
follow, yet both constructors return a reader, with an asset built from the 17 bytes (the
17 bytes are a sealed payload that opens; the same happens for any primitives and any such
payload, by `C2_truncated_payload_is_shortened`). -/
theorem C2_counterexample :
    NewAssetReaderFromBytes testPrims testTruncated testKey
        = some (.ok ⟨[([97], ⟨[97], [116], [0, 1, 2]⟩)]⟩)
      ∧ NewAssetReader testPrims (testEnvWith testTruncated) [102] testKey
        = some (.ok ⟨[([97], ⟨[97], [116], [0, 1, 2]⟩)]⟩) := by
  decide

/-- C2, amended: when the header at which the loop has arrived (fields `p`, `t`, `s`, free
of `':'`) declares a payload length `n` greater than the number of bytes left, and `n` is a
length `make` accepts (at most `maxAlloc`), neither constructor rejects the frame for
that: the payload is cut down to the bytes `r3` that are left and handled as a payload of
that length. The result is an error when fewer than
nonce-size bytes are left, when `gcm.Open` rejects them or when gunzip fails; otherwise the
constructor succeeds and has indexed the asset decoded from the shortened payload. -/
theorem C2_truncated_payload_is_shortened (P : Prims) (E : Env) (filePath data key : Bytes)
    (idx : Index) (p t s r3 : Bytes) (n : Int)
    (hkey : key.length = 16 ∨ key.length = 24 ∨ key.length = 32)
    (hfile : E.readFile filePath = some data)
    (hreach : Reaches P key data [] (p ++ colon :: (t ++ colon :: (s ++ colon :: r3))) idx)
    (hp : colon ∉ p) (ht : colon ∉ t) (hs : colon ∉ s)
    (hn : Atoi s = some n) (hshort : (r3.length : Int) < n) (hmax : n ≤ (maxAlloc : Int)) :
    NewAssetReaderFromBytes P data key = shortenedOutcome P key idx p t r3
      ∧ NewAssetReader P E filePath key = shortenedOutcome P key idx p t r3 := by
  have hmain : NewAssetReaderFromBytes P data key = shortenedOutcome P key idx p t r3 := by
    rw [NewAssetReaderFromBytes_at P data key _ idx hkey hreach,
      readFrame_header P key p t s r3 hp ht hs, hn]
    simp only []
    rw [readPayload_short P key p t r3 n hshort hmax, shortenedOutcome]
    by_cases hlen : r3.length < nonceSize
    · rw [if_pos hlen, if_pos hlen]
      rfl
    · rw [if_neg hlen, if_neg hlen]
      cases P.gcmOpen key (r3.take nonceSize) (r3.drop nonceSize) with
      | none => rfl
      | some decrypted =>
        simp only []
        cases P.gunzip decrypted with
        | badHeader => rfl
        | badBody => rfl
        | data content =>
          simp only [finishWith]
          rw [readLoopBytes_nil]
          rfl
  exact ⟨hmain, (NewAssetReader_eq P E filePath data key hfile).trans hmain⟩

/-- Witness for C2, amended: the stream `testTruncated`. -/
theorem C2_truncated_payload_is_shortened_witness :
    NewAssetReaderFromBytes testPrims testTruncated testKey
        = shortenedOutcome testPrims testKey [] [97] [116]
            [0, 1, 2, 3, 4, 5, 6, 7, 8, 9, 10, 11, 31, 0, 1, 2, 123]
      ∧ NewAssetReader testPrims (testEnvWith testTruncated) [102] testKey
        = shortenedOutcome testPrims testKey [] [97] [116]
            [0, 1, 2, 3, 4, 5, 6, 7, 8, 9, 10, 11, 31, 0, 1, 2, 123] :=
  C2_truncated_payload_is_shortened testPrims (testEnvWith testTruncated) [102] testTruncated testKey []
    [97] [116] [57, 57] [0, 1, 2, 3, 4, 5, 6, 7, 8, 9, 10, 11, 31, 0, 1, 2, 123] 99
    (by decide) (by decide) (Reaches.refl _ _) (by decide) (by decide) (by decide)
    (by decide) (by decide) (by decide)

/-! ## Lemmas: a changed byte in a sealed payload -/

theorem sealedOf_eq (P : Prims) (E : Env) (key : Bytes) (a : Asset) (nonce : Bytes) :
    sealedOf P E key a nonce = nonce ++ cipherOf P E key a nonce := rfl

theorem wireFormat_append (P : Prims) (E : Env) (key : Bytes) (l1 l2 : List Asset)
    (rand : Bytes) :
    wireFormat P E key (l1 ++ l2) rand
      = wireFormat P E key l1 rand ++ wireFormat P E key l2 (rand.drop (nonceSize * l1.length)) := by
  induction l1 generalizing rand with
  | nil => simp [wireFormat]
  | cons a l1 ih =>
    have hd : (rand.drop nonceSize).drop (nonceSize * l1.length)
        = rand.drop (nonceSize * (a :: l1).length) := by
      rw [List.drop_drop, List.length_cons, Nat.mul_succ, Nat.add_comm]
    rw [List.cons_append, wireFormat, wireFormat, ih, hd, List.append_assoc]

theorem frameBytes_eq_header (p t sealed : Bytes) :
    frameBytes p t sealed
      = (p ++ [colon] ++ t ++ [colon] ++ itoa sealed.length ++ [colon]) ++ sealed := rfl

theorem PackAssets_ok_key (P : Prims) (E : Env) (rand : Bytes) (assets : List Asset)
    (outputPath key : Bytes) (h : (PackAssets P E rand assets outputPath key).err = none) :
    key.length = 16 ∨ key.length = 24 ∨ key.length = 32 := by
  by_contra hk
  simp [PackAssets, newGCM, hk] at h

/-- The frames of a packed container before a given point either make the loop return an
error or bring it to that point. -/
theorem loop_wireFormat_cases (P : Prims) (E : Env) (key : Bytes) (pre : List Asset)
    (rand rest : Bytes) (idx : Index)
    (hcolon : ∀ a ∈ pre, colon ∉ a.Path ∧ colon ∉ a.Typ)
    (hlen : (wireFormat P E key pre rand).length ≤ maxAlloc) :
    (∃ e, ∀ f, (wireFormat P E key pre rand ++ rest).length < f →
        readLoopBytes P key f (wireFormat P E key pre rand ++ rest) idx = some (.error e))
      ∨ ∃ idx2, Reaches P key (wireFormat P E key pre rand ++ rest) idx rest idx2 := by
  induction pre generalizing rand idx with
  | nil => exact Or.inr ⟨idx, Reaches.refl _ _⟩
  | cons a pre ih =>
    have hl := wireFormat_length_cons P E key a pre rand
    have hs := sealed_le_frameBytes a.Path a.Typ (sealedOf P E key a (rand.take nonceSize))
    have hstep := readFrame_frameBytes P key a.Path a.Typ
      (sealedOf P E key a (rand.take nonceSize))
      (wireFormat P E key pre (rand.drop nonceSize) ++ rest)
      (hcolon a (by simp)).1 (hcolon a (by simp)).2 (by omega)
    have hfail : ∀ e, readFrame P key (wireFormat P E key (a :: pre) rand ++ rest) = .fail e →
        ∃ e, ∀ f, (wireFormat P E key (a :: pre) rand ++ rest).length < f →
          readLoopBytes P key f (wireFormat P E key (a :: pre) rand ++ rest) idx
            = some (.error e) := by
      intro e he
      refine ⟨e, fun f hf => ?_⟩
      cases f with
      | zero => omega
      | succ k => rw [readLoopBytes_succ, he]
    rw [← List.append_assoc, ← wireFormat] at hstep
    by_cases h12 : (sealedOf P E key a (rand.take nonceSize)).length < nonceSize
    · rw [if_pos h12] at hstep
      exact Or.inl (hfail _ hstep)
    · rw [if_neg h12] at hstep
      cases ho : P.gcmOpen key ((sealedOf P E key a (rand.take nonceSize)).take nonceSize)
          ((sealedOf P E key a (rand.take nonceSize)).drop nonceSize) with
      | none =>
        rw [ho] at hstep
        exact Or.inl (hfail _ hstep)
      | some decrypted =>
        rw [ho] at hstep
        simp only [] at hstep
        cases hg : P.gunzip decrypted with
        | badHeader =>
          rw [hg] at hstep
          exact Or.inl (hfail _ hstep)
        | badBody =>
          rw [hg] at hstep
          exact Or.inl (hfail _ hstep)
        | data content =>
          rw [hg] at hstep
          simp only [] at hstep
          have hlen2 := readFrame_frame_length P key _ _ _ hstep
          rcases ih (rand.drop nonceSize)
              (mapInsert idx a.Path ⟨a.Path, a.Typ, content⟩)
              (fun b hb => hcolon b (by simp [hb])) (by omega) with ⟨e, he⟩ | ⟨idx2, hr⟩
          · refine Or.inl ⟨e, fun f hf => ?_⟩
            cases f with
            | zero => omega
            | succ k =>
              rw [readLoopBytes_succ, hstep]
              exact he k (by omega)
          · exact Or.inr ⟨idx2, Reaches.step hstep hr⟩

theorem set_middle (A H N C B : Bytes) (i b : Nat) (hi : i < C.length) :
    (A ++ ((H ++ (N ++ C)) ++ B)).set (A.length + H.length + N.length + i) b
      = A ++ ((H ++ (N ++ C.set i b)) ++ B) := by
  have e1 : A.length + H.length + N.length + i - A.length = H.length + N.length + i := by
    omega
  have e2 : H.length + N.length + i - H.length = N.length + i := by omega
  have e3 : N.length + i - N.length = i := by omega
  rw [List.set_append_right _ _ (by omega), e1, List.append_assoc,
    List.set_append_right _ _ (by omega), e2, List.append_assoc,
    List.set_append_right _ _ (by omega), e3, List.set_append_left _ _ hi]
  simp

/-- A container of `pre ++ a :: post` with byte `i` of the ciphertext of `a` set to `b`:
the frames keep their places, only the sealed payload of `a` differs. -/
theorem set_cipher_byte (P : Prims) (E : Env) (key : Bytes) (pre post : List Asset) (a : Asset)
    (rand : Bytes) (i b : Nat) (hrand : nonceSize * (pre.length + 1) ≤ rand.length)
    (hi : i < (cipherOf P E key a (nonceAt rand pre.length)).length) :
    (wireFormat P E key (pre ++ a :: post) rand).set (cipherOffset P E key pre a rand + i) b
      = wireFormat P E key pre rand
        ++ (frameBytes a.Path a.Typ
              (nonceAt rand pre.length ++ (cipherOf P E key a (nonceAt rand pre.length)).set i b)
            ++ wireFormat P E key post (rand.drop (nonceSize * (pre.length + 1)))) := by
  have hn : (nonceAt rand pre.length).length = nonceSize := by
    simp only [nonceAt, List.length_take, List.length_drop]
    rw [Nat.mul_succ] at hrand
    omega
  have hdd : (rand.drop (nonceSize * pre.length)).drop nonceSize
      = rand.drop (nonceSize * (pre.length + 1)) := by
    rw [List.drop_drop, Nat.mul_succ]
  have hw : wireFormat P E key (pre ++ a :: post) rand
      = wireFormat P E key pre rand
        ++ (((a.Path ++ [colon] ++ a.Typ ++ [colon]
              ++ itoa (sealedOf P E key a (nonceAt rand pre.length)).length ++ [colon])
            ++ (nonceAt rand pre.length ++ cipherOf P E key a (nonceAt rand pre.length)))
          ++ wireFormat P E key post (rand.drop (nonceSize * (pre.length + 1)))) := by
    rw [wireFormat_append, wireFormat, hdd]
    rfl
  have hlen : (nonceAt rand pre.length
        ++ (cipherOf P E key a (nonceAt rand pre.length)).set i b).length
      = (sealedOf P E key a (nonceAt rand pre.length)).length := by
    simp [sealedOf_eq]
  rw [hw, frameBytes_eq_header, hlen, cipherOffset, ← hn]
  exact set_middle _ _ _ _ _ i b hi

/-- One iteration on a frame whose sealed payload is `nonce ++ ct` with a ciphertext that
`gcm.Open` rejects. -/
theorem readFrame_rejected (P : Prims) (key p t nonce ct rest : Bytes) (hp : colon ∉ p)
    (ht : colon ∉ t) (hn : nonce.length = nonceSize) (hlen : (nonce ++ ct).length ≤ maxAlloc)
    (hrej : P.gcmOpen key nonce ct = none) :
    readFrame P key (frameBytes p t (nonce ++ ct) ++ rest) = .fail .decrypt := by
  rw [readFrame_frameBytes P key p t _ rest hp ht hlen]
  have h12 : ¬ ((nonce ++ ct).length < nonceSize) := by
    simp only [List.length_append, hn]
    omega
  rw [if_neg h12, List.take_append_of_le_length (Nat.le_of_eq hn.symm),
    List.take_of_length_le (Nat.le_of_eq hn),
    List.drop_append_of_le_length (Nat.le_of_eq hn.symm),
    List.drop_of_length_le (Nat.le_of_eq hn), List.nil_append, hrej]

/-! ## Claim C3 -/

/-- C3, counterexample: the identifier of `testSmuggleAsset` contains `':'`. `PackAssets`
writes `testSmuggleContainer` for it; the last byte of the container is the tag of the
sealed payload, and `gcm.Open` rejects the ciphertext with that byte changed from 152 to 0.
Yet the constructor returns a reader for the changed container: it reads the frame
`p:t:33:` that starts inside the identifier, whose 33 payload bytes end just before the
changed byte, and takes the changed byte for trailing bytes. -/
theorem C3_counterexample :
    PackAssets testPrims testEnvSmuggle (List.range 30) [testSmuggleAsset] [111] testKey
        = ⟨none, some testSmuggleContainer⟩
      ∧ cipherOf testPrims testEnvSmuggle testKey testSmuggleAsset (nonceAt (List.range 30) 0)
        = [31, 32, 152]
      ∧ cipherOffset testPrims testEnvSmuggle testKey [] testSmuggleAsset (List.range 30) + 2
        = 40
      ∧ testPrims.gcmOpen testKey (nonceAt (List.range 30) 0) ([31, 32, 152].set 2 0) = none
      ∧ NewAssetReaderFromBytes testPrims (testSmuggleContainer.set 40 0) testKey
        = some (.ok ⟨[([112], ⟨[112], [116],
            [58, 117, 58, 49, 53, 58, 0, 1, 2, 3, 4, 5, 6, 7, 8, 9, 10, 11, 31]⟩)]⟩) := by
  decide

/-- C3, amended (tamper detection for `':'`-free identifiers and type tags): let `written`
be the container a successful `PackAssets` wrote for `pre ++ a :: post`, the identifiers and
type tags of `pre` and of `a` free of `':'` (a Go byte slice, so of at most `maxAlloc`
bytes), and change byte
`i` of the ciphertext-or-tag part of the sealed payload of `a` to `b`. The change leaves
every frame where it was: the stream is the frames of `pre`, the frame of `a` with the same
header and nonce and the changed ciphertext, and the frames of `post`. The reader hands the
nonce and the changed ciphertext of that frame to `gcm.Open`: if `gcm.Open` rejects them, the
constructor returns an error and no reader, and under the round-trip assumptions on the
primitives that error is the decryption error of this frame. -/
theorem C3_tamper_detected (P : Prims) (E : Env) (rand : Bytes) (pre post : List Asset)
    (a : Asset) (outputPath key written : Bytes) (i b : Nat)
    (hcolon : ∀ x ∈ pre, colon ∉ x.Path ∧ colon ∉ x.Typ)
    (ha : colon ∉ a.Path ∧ colon ∉ a.Typ)
    (hpack : PackAssets P E rand (pre ++ a :: post) outputPath key = ⟨none, some written⟩)
    (hsize : written.length ≤ maxAlloc)
    (hi : i < (cipherOf P E key a (nonceAt rand pre.length)).length)
    (hrej : P.gcmOpen key (nonceAt rand pre.length)
      ((cipherOf P E key a (nonceAt rand pre.length)).set i b) = none) :
    written.set (cipherOffset P E key pre a rand + i) b
        = wireFormat P E key pre rand
          ++ (frameBytes a.Path a.Typ (nonceAt rand pre.length
                ++ (cipherOf P E key a (nonceAt rand pre.length)).set i b)
              ++ wireFormat P E key post (rand.drop (nonceSize * (pre.length + 1))))
      ∧ (∃ e, NewAssetReaderFromBytes P (written.set (cipherOffset P E key pre a rand + i) b)
            key = some (.error e))
      ∧ ((∀ nonce pt, nonce.length = nonceSize →
            P.gcmOpen key nonce (P.gcmSeal key nonce pt) = some pt) →
          (∀ x z, compressAsset P x = .ok z → P.gunzip z = .data x) →
          NewAssetReaderFromBytes P (written.set (cipherOffset P E key pre a rand + i) b) key
            = some (.error .decrypt)) := by
  have herr : (PackAssets P E rand (pre ++ a :: post) outputPath key).err = none := by
    rw [hpack]
  have hkey := PackAssets_ok_key P E rand _ outputPath key herr
  obtain ⟨h1, h2, h3⟩ := PackAssets_ok P E rand _ outputPath key herr
  rw [hpack] at h1
  simp only [Option.some.injEq] at h1
  subst h1
  have hrand : nonceSize * (pre.length + 1) ≤ rand.length := by
    simp only [List.length_append, List.length_cons, Nat.mul_add, Nat.mul_succ] at h3 ⊢
    omega
  have hn : (nonceAt rand pre.length).length = nonceSize := by
    simp only [nonceAt, List.length_take, List.length_drop]
    rw [Nat.mul_succ] at hrand
    omega
  have hset := set_cipher_byte P E key pre post a rand i b hrand hi
  have hsetlen := congrArg List.length hset
  rw [List.length_set] at hsetlen
  simp only [List.length_append] at hsetlen
  have hfl := sealed_le_frameBytes a.Path a.Typ (nonceAt rand pre.length
    ++ (cipherOf P E key a (nonceAt rand pre.length)).set i b)
  have hstep := readFrame_rejected P key a.Path a.Typ (nonceAt rand pre.length)
    ((cipherOf P E key a (nonceAt rand pre.length)).set i b)
    (wireFormat P E key post (rand.drop (nonceSize * (pre.length + 1)))) ha.1 ha.2 hn
    (by omega) hrej
  have hat : ∀ idx2, Reaches P key
      ((wireFormat P E key (pre ++ a :: post) rand).set (cipherOffset P E key pre a rand + i) b)
      [] (frameBytes a.Path a.Typ (nonceAt rand pre.length
            ++ (cipherOf P E key a (nonceAt rand pre.length)).set i b)
          ++ wireFormat P E key post (rand.drop (nonceSize * (pre.length + 1)))) idx2 →
      NewAssetReaderFromBytes P
        ((wireFormat P E key (pre ++ a :: post) rand).set (cipherOffset P E key pre a rand + i) b)
        key = some (.error .decrypt) := by
    intro idx2 hr
    rw [NewAssetReaderFromBytes_at P _ key _ idx2 hkey hr, hstep]
    rfl
  refine ⟨hset, ?_, ?_⟩
  · rcases loop_wireFormat_cases P E key pre rand
        (frameBytes a.Path a.Typ (nonceAt rand pre.length
            ++ (cipherOf P E key a (nonceAt rand pre.length)).set i b)
          ++ wireFormat P E key post (rand.drop (nonceSize * (pre.length + 1)))) []
        hcolon (by omega) with ⟨e, he⟩ | ⟨idx2, hr⟩
    · refine ⟨e, ?_⟩
      rw [hset]
      simp only [NewAssetReaderFromBytes, newGCM, hkey, if_true]
      rw [he _ (by omega)]
      rfl
    · rw [← hset] at hr
      exact ⟨_, hat idx2 hr⟩
  · intro hopen hgz
    have hr := reaches_wireFormat P E key pre rand
      (frameBytes a.Path a.Typ (nonceAt rand pre.length
          ++ (cipherOf P E key a (nonceAt rand pre.length)).set i b)
        ++ wireFormat P E key post (rand.drop (nonceSize * (pre.length + 1)))) []
      hopen hgz hcolon (fun x hx => h2 x (by simp [hx]))
      (by rw [Nat.mul_succ] at hrand; omega) (by omega)
    rw [← hset] at hr
    exact hat _ hr

/-- Witness for C3, amended: the last byte (the tag) of the first frame of `testContainer`
changed from 123 to 0. -/
theorem C3_tamper_detected_witness :
    NewAssetReaderFromBytes testPrims (testContainer.set 23 0) testKey
      = some (.error .decrypt) :=
  (C3_tamper_detected testPrims testEnv (List.range 30) [] [⟨[98], [117, 118], []⟩]
    ⟨[97], [116], []⟩ [111] testKey testContainer 4 0 (by decide) (by decide) (by decide)
    (by decide) (by decide) (by decide)).2.2
    (fun nonce pt _ => testPrims_open_seal testKey nonce pt) testPrims_gunzip_gzip

/-! ## Lemmas: length fields that `strconv.Atoi` rejects -/

theorem parseUintDigits_none (a : Nat) (ds : Bytes)
    (h : ds.all (fun c => decide (48 ≤ c ∧ c ≤ 57)) = false) : parseUintDigits a ds = none := by
  induction ds generalizing a with
  | nil => simp at h
  | cons c ds ih =>
    by_cases hc : 48 ≤ c ∧ c ≤ 57
    · have h2 : ds.all (fun c => decide (48 ≤ c ∧ c ≤ 57)) = false := by
        simpa [List.all_cons, hc] using h
      simp only [parseUintDigits, hc, and_self, if_true]
      exact ih _ h2
    · simp [parseUintDigits, hc]

theorem Atoi_digits_none (neg : Bool) (ds : Bytes) (h : isDigits ds = false) :
    (if ds = [] then (none : Option Int)
      else
        match parseUintDigits 0 ds with
        | none => none
        | some un =>
          if neg = false ∧ 2 ^ 63 ≤ un then none
          else if neg = true ∧ 2 ^ 63 < un then none
          else some (if neg then -(un : Int) else (un : Int))) = none := by
  by_cases hd : ds = []
  · rw [if_pos hd]
  · rw [if_neg hd]
    have hall : ds.all (fun c => decide (48 ≤ c ∧ c ≤ 57)) = false := by
      cases ds with
      | nil => exact absurd rfl hd
      | cons c t => simpa [isDigits] using h
    rw [parseUintDigits_none 0 ds hall]

/-- The function `strconv.Atoi` fails on everything that is not an optional sign followed
by a non-empty run of digits. -/
theorem Atoi_none_of_not_signed (s : Bytes) (h : isSignedDigits s = false) : Atoi s = none := by
  cases s with
  | nil => simp [Atoi]
  | cons c t =>
    by_cases h43 : c = 43
    · subst h43
      have ht : isDigits t = false := by simpa [isSignedDigits] using h
      have := Atoi_digits_none false t ht
      simpa [Atoi] using this
    · by_cases h45 : c = 45
      · subst h45
        have ht : isDigits t = false := by simpa [isSignedDigits] using h
        have := Atoi_digits_none true t ht
        simpa [Atoi] using this
      · have hs : isDigits (c :: t) = false := by simpa [isSignedDigits, h43, h45] using h
        have := Atoi_digits_none false (c :: t) hs
        simpa [Atoi, h43, h45] using this

/-! ## Claim C5 -/

/-- C5, counterexample: the length field `+17` is not a string of ASCII digits, yet both
constructors accept the frame and return a reader. -/
theorem C5_counterexample :
    isDigits [43, 49, 55] = false
      ∧ NewAssetReaderFromBytes testPrims testPlusLength testKey
        = some (.ok ⟨[([97], ⟨[97], [116], [0, 1, 2]⟩)]⟩)
      ∧ NewAssetReader testPrims (testEnvWith testPlusLength) [102] testKey
        = some (.ok ⟨[([97], ⟨[97], [116], [0, 1, 2]⟩)]⟩) := by
  decide

/-- C5, amended: when the length field `s` of the header at which the loop has arrived is
not an optional `'+'` or `'-'` sign followed by a non-empty string of ASCII digits (an
empty field, a field with a letter, a lone sign), both constructors return the
size-conversion error and no reader. -/
theorem C5_malformed_length_is_error (P : Prims) (E : Env) (filePath data key : Bytes)
    (idx : Index) (p t s r3 : Bytes)
    (hkey : key.length = 16 ∨ key.length = 24 ∨ key.length = 32)
    (hfile : E.readFile filePath = some data)
    (hreach : Reaches P key data [] (p ++ colon :: (t ++ colon :: (s ++ colon :: r3))) idx)
    (hp : colon ∉ p) (ht : colon ∉ t) (hs : colon ∉ s)
    (hbad : isSignedDigits s = false) :
    NewAssetReaderFromBytes P data key = some (.error .convSize)
      ∧ NewAssetReader P E filePath key = some (.error .convSize) := by
  have hmain : NewAssetReaderFromBytes P data key = some (.error .convSize) := by
    rw [NewAssetReaderFromBytes_at P data key _ idx hkey hreach,
      readFrame_header P key p t s r3 hp ht hs, Atoi_none_of_not_signed s hbad]
    rfl
  exact ⟨hmain, (NewAssetReader_eq P E filePath data key hfile).trans hmain⟩

/-- Witness for C5, amended: the length field `1x`. -/
theorem C5_malformed_length_is_error_witness :
    NewAssetReaderFromBytes testPrims testLetterLength testKey = some (.error .convSize)
      ∧ NewAssetReader testPrims (testEnvWith testLetterLength) [102] testKey
        = some (.error .convSize) :=
  C5_malformed_length_is_error testPrims (testEnvWith testLetterLength) [102]
    testLetterLength testKey [] [97] [116] [49, 120]
    [0, 1, 2, 3, 4, 5, 6, 7, 8, 9, 10, 11, 31, 0, 1, 2, 123]
    (by decide) (by decide) (Reaches.refl _ _) (by decide) (by decide) (by decide) (by decide)

/-! ## Lemmas: end of stream inside a header -/

theorem readFrame_eof_path (P : Prims) (key rest : Bytes) (h : colon ∉ rest) :
    readFrame P key rest = .stop := by
  rw [readFrame, readUntilColon_none rest h]

theorem readFrame_eof_type (P : Prims) (key p tail : Bytes) (hp : colon ∉ p)
    (htail : colon ∉ tail) : readFrame P key (p ++ colon :: tail) = .fail .readType := by
  rw [readFrame, readUntilColon_append _ _ hp]
  simp only []
  rw [readUntilColon_none tail htail]

theorem readFrame_eof_size (P : Prims) (key p t tail : Bytes) (hp : colon ∉ p)
    (ht : colon ∉ t) (htail : colon ∉ tail) :
    readFrame P key (p ++ colon :: (t ++ colon :: tail)) = .fail .readSize := by
  rw [readFrame, readUntilColon_append _ _ hp]
  simp only []
  rw [readUntilColon_append _ _ ht]
  simp only []
  rw [readUntilColon_none tail htail]

/-- A stream with a delimiter splits at its first delimiter. -/
theorem split_at_colon (r : Bytes) (h : colon ∈ r) :
    ∃ p tail, colon ∉ p ∧ r = p ++ colon :: tail := by
  cases hr : readUntilColon r with
  | none => exact absurd h ((readUntilColon_eq_none_iff r).1 hr)
  | some pr =>
    obtain ⟨p, tail⟩ := pr
    exact ⟨p, tail, readUntilColon_some r p tail hr⟩

/-- With one or two delimiters left, the iteration ends in an error. -/
theorem readFrame_few_colons (P : Prims) (key rest : Bytes) (h1 : colon ∈ rest)
    (h3 : rest.count colon < 3) :
    readFrame P key rest = .fail .readType ∨ readFrame P key rest = .fail .readSize := by
  obtain ⟨p, r1, hp, rfl⟩ := split_at_colon rest h1
  have hc1 : r1.count colon < 2 := by
    simp only [List.count_append, List.count_cons_self, List.count_eq_zero.2 hp] at h3
    omega
  by_cases h2 : colon ∈ r1
  · obtain ⟨t, r2, ht, rfl⟩ := split_at_colon r1 h2
    have hc2 : r2.count colon = 0 := by
      simp only [List.count_append, List.count_cons_self, List.count_eq_zero.2 ht] at hc1
      omega
    exact Or.inr (readFrame_eof_size P key p t r2 hp ht (List.count_eq_zero.1 hc2))
  · exact Or.inl (readFrame_eof_type P key p r1 hp h2)

/-! ## Claim C6 -/

/-- C6, counterexample: the stream `abc` ends inside the identifier field after three
header bytes, and `testContainer` followed by `xy` ends inside the identifier field of a
third frame; in both cases the constructor returns a reader, not an error. -/
theorem C6_counterexample :
    NewAssetReaderFromBytes testPrims [97, 98, 99] testKey = some (.ok ⟨[]⟩)
      ∧ NewAssetReaderFromBytes testPrims (testContainer ++ [120, 121]) testKey
        = some (.ok ⟨[([98], ⟨[98], [117, 118], []⟩), ([97], ⟨[97], [116], [0, 1, 2]⟩)]⟩) := by
  decide

/-- C6, amended: with the loop at the head of an iteration on the remaining bytes `rest`
and index `idx`: if the stream ends inside the identifier field (no `':'` in `rest`, which
may be non-empty), both constructors take it for the normal end of the container and
succeed with the frames parsed so far, the trailing bytes being dropped; if the stream ends
after the delimiter of the identifier and before the third delimiter of the header (one or
two `':'` in `rest`), both constructors return an error and no reader. -/
theorem C6_eof_in_header (P : Prims) (E : Env) (filePath data key rest : Bytes) (idx : Index)
    (hkey : key.length = 16 ∨ key.length = 24 ∨ key.length = 32)
    (hfile : E.readFile filePath = some data)
    (hreach : Reaches P key data [] rest idx) :
    (colon ∉ rest →
        NewAssetReaderFromBytes P data key = some (.ok ⟨idx⟩)
          ∧ NewAssetReader P E filePath key = some (.ok ⟨idx⟩))
      ∧ (colon ∈ rest → rest.count colon < 3 →
        ∃ e, NewAssetReaderFromBytes P data key = some (.error e)
          ∧ NewAssetReader P E filePath key = some (.error e)) := by
  have hat := NewAssetReaderFromBytes_at P data key rest idx hkey hreach
  have hf := NewAssetReader_eq P E filePath data key hfile
  constructor
  · intro h0
    rw [readFrame_eof_path P key rest h0] at hat
    exact ⟨hat, hf.trans hat⟩
  · intro h1 h3
    rcases readFrame_few_colons P key rest h1 h3 with h | h
    · rw [h] at hat
      exact ⟨_, hat, hf.trans hat⟩
    · rw [h] at hat
      exact ⟨_, hat, hf.trans hat⟩

/-- Witness for C6, amended: `abc` is accepted, `a:bc` is an error. -/
theorem C6_eof_in_header_witness :
    (NewAssetReaderFromBytes testPrims [97, 98, 99] testKey = some (.ok ⟨[]⟩)
        ∧ NewAssetReader testPrims (testEnvWith [97, 98, 99]) [102] testKey = some (.ok ⟨[]⟩))
      ∧ ∃ e, NewAssetReaderFromBytes testPrims [97, 58, 98, 99] testKey = some (.error e)
          ∧ NewAssetReader testPrims (testEnvWith [97, 58, 98, 99]) [102] testKey
            = some (.error e) :=
  ⟨(C6_eof_in_header testPrims (testEnvWith [97, 98, 99]) [102] [97, 98, 99] testKey
      [97, 98, 99] [] (by decide) (by decide) (Reaches.refl _ _)).1 (by decide),
   (C6_eof_in_header testPrims (testEnvWith [97, 58, 98, 99]) [102] [97, 58, 98, 99] testKey
      [97, 58, 98, 99] [] (by decide) (by decide) (Reaches.refl _ _)).2 (by decide)
      (by decide)⟩

/-! ## Claim C7 -/

/-- C7 (end of stream in the type-tag or length field): with the loop at the head of an
iteration, an identifier `p` and its delimiter read: if the stream ends before the delimiter
that closes the type tag, both constructors return the type-read error; if a type tag `t`
and its delimiter follow and the stream ends before the delimiter that closes the length
field, both return the size-read error; no reader is returned. -/
theorem C7_eof_in_type_or_length (P : Prims) (E : Env) (filePath data key : Bytes)
    (idx : Index) (p t tail : Bytes)
    (hkey : key.length = 16 ∨ key.length = 24 ∨ key.length = 32)
    (hfile : E.readFile filePath = some data)
    (hp : colon ∉ p) (ht : colon ∉ t) (htail : colon ∉ tail) :
    (Reaches P key data [] (p ++ colon :: tail) idx →
        NewAssetReaderFromBytes P data key = some (.error .readType)
          ∧ NewAssetReader P E filePath key = some (.error .readType))
      ∧ (Reaches P key data [] (p ++ colon :: (t ++ colon :: tail)) idx →
        NewAssetReaderFromBytes P data key = some (.error .readSize)
          ∧ NewAssetReader P E filePath key = some (.error .readSize)) := by
  have hf := NewAssetReader_eq P E filePath data key hfile
  constructor
  · intro hreach
    have hat := NewAssetReaderFromBytes_at P data key _ idx hkey hreach
    rw [readFrame_eof_type P key p tail hp htail] at hat
    exact ⟨hat, hf.trans hat⟩
  · intro hreach
    have hat := NewAssetReaderFromBytes_at P data key _ idx hkey hreach
    rw [readFrame_eof_size P key p t tail hp ht htail] at hat
    exact ⟨hat, hf.trans hat⟩

/-- Witness for C7: after the two frames of `testContainer`, the stream `c:uv:1` ends in the
length field. -/
theorem C7_eof_in_type_or_length_witness :
    NewAssetReaderFromBytes testPrims (testContainer ++ [99, 58, 117, 118, 58, 49]) testKey
        = some (.error .readSize)
      ∧ NewAssetReader testPrims (testEnvWith (testContainer ++ [99, 58, 117, 118, 58, 49]))
          [102] testKey = some (.error .readSize) :=
  (C7_eof_in_type_or_length testPrims
    (testEnvWith (testContainer ++ [99, 58, 117, 118, 58, 49])) [102]
    (testContainer ++ [99, 58, 117, 118, 58, 49]) testKey
    [([98], ⟨[98], [117, 118], []⟩), ([97], ⟨[97], [116], [0, 1, 2]⟩)]
    [99] [117, 118] [49] (by decide) (by decide) (by decide) (by decide) (by decide)).2
    (@Reaches.step testPrims testKey _ (List.drop 24 testContainer ++ [99, 58, 117, 118, 58, 49])
      _ _ _ ⟨[97], [116], [0, 1, 2]⟩ (by decide)
      (@Reaches.step testPrims testKey _ [99, 58, 117, 118, 58, 49] _ _ _
        ⟨[98], [117, 118], []⟩ (by decide) (Reaches.refl _ _)))

/-! ## Claim C8 -/

/-- C8 (end of stream at a frame boundary): for a valid key the empty stream gives a reader
with an empty index, on which `GetAsset` fails for every identifier; and whenever the loop
is back at its head with index `idx` exactly at the end of the stream, that is the stream is
used up after the last payload byte of a frame, both constructors stop and succeed with the
frames parsed so far. -/
theorem C8_eof_at_frame_boundary (P : Prims) (E : Env) (filePath data key : Bytes)
    (idx : Index)
    (hkey : key.length = 16 ∨ key.length = 24 ∨ key.length = 32)
    (hfile : E.readFile filePath = some data)
    (hreach : Reaches P key data [] [] idx) :
    (NewAssetReaderFromBytes P [] key = some (.ok ⟨[]⟩)
        ∧ ∀ id, (GetAsset ⟨[]⟩ id).1 = .error .notFound)
      ∧ NewAssetReaderFromBytes P data key = some (.ok ⟨idx⟩)
      ∧ NewAssetReader P E filePath key = some (.ok ⟨idx⟩) := by
  have hmain := NewAssetReaderFromBytes_of_reaches P data key idx hkey hreach
  refine ⟨⟨NewAssetReaderFromBytes_of_reaches P [] key [] hkey (Reaches.refl _ _), ?_⟩,
    hmain, (NewAssetReader_eq P E filePath data key hfile).trans hmain⟩
  intro id
  rfl

/-- Witness for C8: `testContainer` ends after the last payload byte of its second frame. -/
theorem C8_eof_at_frame_boundary_witness :
    (NewAssetReaderFromBytes testPrims [] testKey = some (.ok ⟨[]⟩)
        ∧ ∀ id, (GetAsset ⟨[]⟩ id).1 = .error .notFound)
      ∧ NewAssetReaderFromBytes testPrims testContainer testKey
        = some (.ok ⟨[([98], ⟨[98], [117, 118], []⟩), ([97], ⟨[97], [116], [0, 1, 2]⟩)]⟩)
      ∧ NewAssetReader testPrims (testEnvWith testContainer) [102] testKey
        = some (.ok ⟨[([98], ⟨[98], [117, 118], []⟩), ([97], ⟨[97], [116], [0, 1, 2]⟩)]⟩) :=
  C8_eof_at_frame_boundary testPrims (testEnvWith testContainer) [102] testContainer testKey
    [([98], ⟨[98], [117, 118], []⟩), ([97], ⟨[97], [116], [0, 1, 2]⟩)]
    (by decide) (by decide)
    (@Reaches.step testPrims testKey _ (List.drop 24 testContainer) _ _ _
      ⟨[97], [116], [0, 1, 2]⟩ (by decide)
      (@Reaches.step testPrims testKey _ [] _ _ _ ⟨[98], [117, 118], []⟩ (by decide)
        (Reaches.refl _ _)))

/-! ## Lemmas: the index of a constructed reader -/

/-- A constructor that returned a reader ran the loop to a successful end. -/
theorem loop_of_constructed (P : Prims) (E : Env) (filePath data key : Bytes)
    (r : AssetReader)
    (h : NewAssetReaderFromBytes P data key = some (.ok r)
      ∨ (E.readFile filePath = some data ∧ NewAssetReader P E filePath key = some (.ok r))) :
    readLoopBytes P key (data.length + 1) data [] = some (.ok r.assets) := by
  have h2 : NewAssetReaderFromBytes P data key = some (.ok r) := by
    rcases h with h | ⟨hf, h⟩
    · exact h
    · rw [← NewAssetReader_eq P E filePath data key hf]
      exact h
  unfold NewAssetReaderFromBytes at h2
  cases hk : newGCM key with
  | error e => simp [hk] at h2
  | ok u =>
    simp only [hk] at h2
    cases hl : readLoopBytes P key (data.length + 1) data [] with
    | none => simp [hl, toReader] at h2
    | some o =>
      cases o with
      | ok assets =>
        simp only [hl, toReader, Option.some.injEq, Outcome.ok.injEq] at h2
        rw [← h2]
      | error e => simp [hl, toReader] at h2
      | panic => simp [hl, toReader] at h2

theorem keysArePaths_foldl (frames : List Asset) (i : Index) (h : keysArePaths i) :
    keysArePaths (frames.foldl (fun m a => mapInsert m a.Path a) i) := by
  induction frames generalizing i with
  | nil => exact h
  | cons a frames ih => exact ih _ (keysArePaths_insert i a h)

theorem GetAsset_eq_lastFrame (frames : List Asset) (r : AssetReader) (id : Bytes)
    (h : r.assets = frames.foldl (fun m a => mapInsert m a.Path a) []) :
    (GetAsset r id).1 = lastFrame frames id := by
  have hl := mapLookup_foldl frames [] id
  rw [← h] at hl
  simp only [GetAsset, lastFrame]
  rw [hl]
  cases frames.reverse.find? (fun a => decide (a.Path = id)) with
  | none => rfl
  | some a => rfl

/-! ## Claim C9 -/

/-- C9 (last write wins): when a constructor succeeds on a stream, `GetAsset id` returns
the asset (type tag and content) decoded from the last frame in stream order whose
identifier is `id`, and not-found when no frame has it. In particular, under the round-trip
assumptions on the primitives, packing two assets with the same identifier and reading the
result gives under that identifier the type tag and content of the second asset. -/
theorem C9_last_write_wins (P : Prims) (E : Env) (filePath data key : Bytes)
    (r : AssetReader) (id : Bytes)
    (h : NewAssetReaderFromBytes P data key = some (.ok r)
      ∨ (E.readFile filePath = some data ∧ NewAssetReader P E filePath key = some (.ok r))) :
    (GetAsset r id).1 = lastFrame (decodeFrames P key (data.length + 1) data) id
      ∧ ∀ (E2 : Env) (rand : Bytes) (a1 a2 : Asset) (outputPath written : Bytes),
          a1.Path = a2.Path → colon ∉ a2.Path → colon ∉ a1.Typ → colon ∉ a2.Typ →
          (∀ nonce pt, nonce.length = nonceSize →
            P.gcmOpen key nonce (P.gcmSeal key nonce pt) = some pt) →
          (∀ x z, compressAsset P x = .ok z → P.gunzip z = .data x) →
          PackAssets P E2 rand [a1, a2] outputPath key = ⟨none, some written⟩ →
          written.length ≤ maxAlloc →
          ∃ r2 c, NewAssetReaderFromBytes P written key = some (.ok r2)
            ∧ E2.readFile a2.Path = some c
            ∧ (GetAsset r2 a2.Path).1 = .ok ⟨a2.Path, a2.Typ, c⟩ := by
  constructor
  · have hl := loop_of_constructed P E filePath data key r h
    exact GetAsset_eq_lastFrame _ r id (readLoopBytes_ok_decode P key _ data [] r.assets hl)
  · intro E2 rand a1 a2 outputPath written hsame hp2 ht1 ht2 hopen hgz hpack hsize
    have herr : (PackAssets P E2 rand [a1, a2] outputPath key).err = none := by rw [hpack]
    have hkey := PackAssets_ok_key P E2 rand _ outputPath key herr
    obtain ⟨h1, h2, h3⟩ := PackAssets_ok P E2 rand _ outputPath key herr
    rw [hpack] at h1
    simp only [Option.some.injEq] at h1
    subst h1
    have hcolon : ∀ a ∈ [a1, a2], colon ∉ a.Path ∧ colon ∉ a.Typ := by
      intro a ha
      simp only [List.mem_cons, List.mem_singleton, List.not_mem_nil, or_false] at ha
      rcases ha with rfl | rfl
      · exact ⟨hsame ▸ hp2, ht1⟩
      · exact ⟨hp2, ht2⟩
    have hreach := reaches_wireFormat P E2 key [a1, a2] rand [] [] hopen hgz hcolon h2 h3 hsize
    rw [List.append_nil] at hreach
    obtain ⟨c, z, hc, -⟩ := h2 a2 (by simp)
    refine ⟨_, c, NewAssetReaderFromBytes_of_reaches P _ key _ hkey hreach, hc, ?_⟩
    have hg := GetAsset_eq_lastFrame ([a1, a2].map (sourceAsset E2))
      ⟨([a1, a2].map (sourceAsset E2)).foldl (fun m a => mapInsert m a.Path a) []⟩ a2.Path rfl
    rw [hg]
    simp [lastFrame, sourceAsset, hc]

/-- Witness for C9: in `testDuplicateContainer` both frames have the identifier `"a"`; the
lookup gives the second, with type tag `"uv"`. -/
theorem C9_last_write_wins_witness :
    (GetAsset ⟨[([97], ⟨[97], [117, 118], [0, 1, 2]⟩)]⟩ [97]).1
        = .ok ⟨[97], [117, 118], [0, 1, 2]⟩
      ∧ ∃ r2 c, NewAssetReaderFromBytes testPrims testDuplicateContainer testKey
            = some (.ok r2)
          ∧ testEnv.readFile [97] = some c
          ∧ (GetAsset r2 [97]).1 = .ok ⟨[97], [117, 118], c⟩ :=
  ⟨(C9_last_write_wins testPrims testEnv [] testDuplicateContainer testKey
      ⟨[([97], ⟨[97], [117, 118], [0, 1, 2]⟩)]⟩ [97] (Or.inl (by decide))).1.trans
      (by decide),
   (C9_last_write_wins testPrims testEnv [] testDuplicateContainer testKey
      ⟨[([97], ⟨[97], [117, 118], [0, 1, 2]⟩)]⟩ [97] (Or.inl (by decide))).2
      testEnv (List.range 30) ⟨[97], [116], []⟩ ⟨[97], [117, 118], []⟩ [111]
      testDuplicateContainer rfl (by decide) (by decide) (by decide)
      (fun nonce pt _ => testPrims_open_seal testKey nonce pt) testPrims_gunzip_gzip
      (by decide) (by decide)⟩

/-! ## Claim C10 -/

/-- C10 (lookup contract): for a reader `r` returned by either constructor and every
identifier `p`: `GetAsset p` returns an error exactly when `p` is not a key of the index;
otherwise it returns the indexed asset, whose `Path` is `p`; the reader after the call is
the reader before it, so a repeated lookup returns the same result. -/
theorem C10_lookup_contract (P : Prims) (E : Env) (filePath data key : Bytes)
    (r : AssetReader) (p : Bytes)
    (h : NewAssetReaderFromBytes P data key = some (.ok r)
      ∨ (E.readFile filePath = some data ∧ NewAssetReader P E filePath key = some (.ok r))) :
    ((∃ e, (GetAsset r p).1 = .error e) ↔ mapLookup r.assets p = none)
      ∧ (∀ a, mapLookup r.assets p = some a → (GetAsset r p).1 = .ok a ∧ a.Path = p)
      ∧ (GetAsset r p).2 = r
      ∧ GetAsset (GetAsset r p).2 p = GetAsset r p := by
  have hl := loop_of_constructed P E filePath data key r h
  have hdec := readLoopBytes_ok_decode P key _ data [] r.assets hl
  have hkeys : keysArePaths r.assets := by
    rw [hdec]
    exact keysArePaths_foldl _ [] (fun k a hk => by simp [mapLookup] at hk)
  have hstate : (GetAsset r p).2 = r := by
    unfold GetAsset
    cases mapLookup r.assets p <;> rfl
  refine ⟨?_, ?_, hstate, by rw [hstate]⟩
  · unfold GetAsset
    cases hm : mapLookup r.assets p with
    | none => simp
    | some a => simp
  · intro a ha
    refine ⟨?_, hkeys p a ha⟩
    unfold GetAsset
    rw [ha]

/-- Witness for C10: the reader of `testContainer`, looked up under `"b"`. -/
theorem C10_lookup_contract_witness :
    ((∃ e, (GetAsset ⟨[([98], ⟨[98], [117, 118], []⟩), ([97], ⟨[97], [116], [0, 1, 2]⟩)]⟩
          [98]).1 = .error e)
        ↔ mapLookup [([98], ⟨[98], [117, 118], []⟩), ([97], ⟨[97], [116], [0, 1, 2]⟩)] [98]
          = none)
      ∧ (∀ a, mapLookup [([98], ⟨[98], [117, 118], []⟩), ([97], ⟨[97], [116], [0, 1, 2]⟩)]
            [98] = some a →
          (GetAsset ⟨[([98], ⟨[98], [117, 118], []⟩), ([97], ⟨[97], [116], [0, 1, 2]⟩)]⟩
            [98]).1 = .ok a ∧ a.Path = [98])
      ∧ (GetAsset ⟨[([98], ⟨[98], [117, 118], []⟩), ([97], ⟨[97], [116], [0, 1, 2]⟩)]⟩
          [98]).2 = ⟨[([98], ⟨[98], [117, 118], []⟩), ([97], ⟨[97], [116], [0, 1, 2]⟩)]⟩
      ∧ GetAsset (GetAsset
            ⟨[([98], ⟨[98], [117, 118], []⟩), ([97], ⟨[97], [116], [0, 1, 2]⟩)]⟩ [98]).2 [98]
          = GetAsset ⟨[([98], ⟨[98], [117, 118], []⟩), ([97], ⟨[97], [116], [0, 1, 2]⟩)]⟩
            [98] :=
  C10_lookup_contract testPrims testEnv [] testContainer testKey
    ⟨[([98], ⟨[98], [117, 118], []⟩), ([97], ⟨[97], [116], [0, 1, 2]⟩)]⟩ [98]
    (Or.inl (by decide))

/-! ## Lemmas: the stages at which an iteration fails -/

theorem readPayload_fail_stage (P : Prims) (key p t r3 : Bytes) (n : Int) (e : Err)
    (h : readPayload P key p t n r3 = .fail e) :
    e = .notEnoughNonce ∨ e = .decrypt ∨ e = .gzipReader ∨ e = .decompress := by
  rw [readPayload] at h
  by_cases hneg : n < 0 ∨ (maxAlloc : Int) < n
  · rw [if_pos hneg] at h
    exact Step.noConfusion h
  · rw [if_neg hneg] at h
    by_cases hlen : (List.take n.toNat r3).length < nonceSize
    · rw [if_pos hlen] at h
      simp only [Step.fail.injEq] at h
      exact Or.inl h.symm
    · rw [if_neg hlen] at h
      cases ho : P.gcmOpen key (List.take nonceSize (List.take n.toNat r3))
          (List.drop nonceSize (List.take n.toNat r3)) with
      | none =>
        simp only [ho, Step.fail.injEq] at h
        exact Or.inr (Or.inl h.symm)
      | some d =>
        simp only [ho] at h
        cases hg : P.gunzip d with
        | badHeader =>
          simp only [hg, Step.fail.injEq] at h
          exact Or.inr (Or.inr (Or.inl h.symm))
        | badBody =>
          simp only [hg, Step.fail.injEq] at h
          exact Or.inr (Or.inr (Or.inr h.symm))
        | data c => simp [hg] at h

/-- An iteration fails at one of seven places: end of stream in the type tag or in the
length field, the conversion of the length, the nonce-size check, `gcm.Open`,
`gzip.NewReader`, `io.ReadAll`. -/
theorem readFrame_fail_stage (P : Prims) (key rest : Bytes) (e : Err)
    (h : readFrame P key rest = .fail e) :
    e = .readType ∨ e = .readSize ∨ e = .convSize ∨ e = .notEnoughNonce ∨ e = .decrypt
      ∨ e = .gzipReader ∨ e = .decompress := by
  rw [readFrame] at h
  cases h1 : readUntilColon rest with
  | none => simp [h1] at h
  | some p1 =>
    obtain ⟨path, r1⟩ := p1
    simp only [h1] at h
    cases h2 : readUntilColon r1 with
    | none =>
      simp only [h2, Step.fail.injEq] at h
      exact Or.inl h.symm
    | some p2 =>
      obtain ⟨typeStr, r2⟩ := p2
      simp only [h2] at h
      cases h3 : readUntilColon r2 with
      | none =>
        simp only [h3, Step.fail.injEq] at h
        exact Or.inr (Or.inl h.symm)
      | some p3 =>
        obtain ⟨sizeStr, r3⟩ := p3
        simp only [h3] at h
        cases h4 : Atoi sizeStr with
        | none =>
          simp only [h4, Step.fail.injEq] at h
          exact Or.inr (Or.inr (Or.inl h.symm))
        | some sizeInt =>
          simp only [h4] at h
          exact Or.inr (Or.inr (Or.inr (readPayload_fail_stage P key _ _ r3 sizeInt e h)))

theorem NewAssetReaderFromBytes_invalid_key (P : Prims) (data key : Bytes)
    (hkey : ¬ (key.length = 16 ∨ key.length = 24 ∨ key.length = 32)) :
    NewAssetReaderFromBytes P data key = some (.error .invalidKey) := by
  simp only [NewAssetReaderFromBytes, newGCM, hkey, if_false]

/-! ## Claim C11 -/

/-- C11 (atomic construction failure): when the loop has completed `k ≥ 0` frames (index
`idx`) and the next iteration fails at any stage (end of stream in the header, malformed
length, payload shorter than the nonce, authentication failure, corrupt compressed stream),
both constructors return an error and no reader, for every key; for a valid key the error is
the one of the failing stage. The index `idx` built from the earlier frames is not
returned. -/
theorem C11_atomic_failure (P : Prims) (E : Env) (filePath data key rest : Bytes)
    (idx : Index) (e : Err)
    (hfile : E.readFile filePath = some data)
    (hreach : Reaches P key data [] rest idx)
    (hfail : readFrame P key rest = .fail e) :
    (∃ e2, NewAssetReaderFromBytes P data key = some (.error e2)
        ∧ NewAssetReader P E filePath key = some (.error e2))
      ∧ (∀ r, NewAssetReaderFromBytes P data key ≠ some (.ok r)
          ∧ NewAssetReader P E filePath key ≠ some (.ok r))
      ∧ ((key.length = 16 ∨ key.length = 24 ∨ key.length = 32) →
          NewAssetReaderFromBytes P data key = some (.error e)
            ∧ NewAssetReader P E filePath key = some (.error e))
      ∧ (e = .readType ∨ e = .readSize ∨ e = .convSize ∨ e = .notEnoughNonce ∨ e = .decrypt
          ∨ e = .gzipReader ∨ e = .decompress) := by
  have hf := NewAssetReader_eq P E filePath data key hfile
  have hvalid : (key.length = 16 ∨ key.length = 24 ∨ key.length = 32) →
      NewAssetReaderFromBytes P data key = some (.error e) := by
    intro hkey
    rw [NewAssetReaderFromBytes_at P data key rest idx hkey hreach, hfail]
    rfl
  have hex : ∃ e2, NewAssetReaderFromBytes P data key = some (.error e2) := by
    by_cases hkey : key.length = 16 ∨ key.length = 24 ∨ key.length = 32
    · exact ⟨e, hvalid hkey⟩
    · exact ⟨.invalidKey, NewAssetReaderFromBytes_invalid_key P data key hkey⟩
  obtain ⟨e2, he2⟩ := hex
  refine ⟨⟨e2, he2, hf.trans he2⟩, ?_, ?_, readFrame_fail_stage P key rest e hfail⟩
  · intro r
    rw [hf, he2]
    simp
  · intro hkey
    exact ⟨hvalid hkey, hf.trans (hvalid hkey)⟩

/-- Witness for C11: in `testBadSecondFrame` the first frame is authentic and the second
fails authentication; the constructors return the decryption error. -/
theorem C11_atomic_failure_witness :
    NewAssetReaderFromBytes testPrims testBadSecondFrame testKey = some (.error .decrypt)
      ∧ NewAssetReader testPrims (testEnvWith testBadSecondFrame) [102] testKey
        = some (.error .decrypt) :=
  (C11_atomic_failure testPrims (testEnvWith testBadSecondFrame) [102] testBadSecondFrame
    testKey (List.drop 24 testBadSecondFrame) [([97], ⟨[97], [116], [0, 1, 2]⟩)] .decrypt
    (by decide)
    (@Reaches.step testPrims testKey _ (List.drop 24 testBadSecondFrame) _ _ _
      ⟨[97], [116], [0, 1, 2]⟩ (by decide) (Reaches.refl _ _))
    (by decide)).2.2.1 (by decide)

/-! ## Claim C12 -/

/-- The payload stage for a length field that parses to a length `make` accepts. -/
theorem payload_in_range (P : Prims) (E : Env) (filePath data key : Bytes) (idx : Index)
    (p t s r3 : Bytes) (n : Int)
    (hfile : E.readFile filePath = some data)
    (hreach : Reaches P key data [] (p ++ colon :: (t ++ colon :: (s ++ colon :: r3))) idx)
    (hp : colon ∉ p) (ht : colon ∉ t) (hs : colon ∉ s)
    (hn : Atoi s = some n) (h0 : 0 ≤ n) (hmax : n ≤ (maxAlloc : Int)) :
    ((r3.take n.toNat).length < nonceSize →
        (∃ e, NewAssetReaderFromBytes P data key = some (.error e)
          ∧ NewAssetReader P E filePath key = some (.error e))
        ∧ ((key.length = 16 ∨ key.length = 24 ∨ key.length = 32) →
          NewAssetReaderFromBytes P data key = some (.error .notEnoughNonce)
            ∧ NewAssetReader P E filePath key = some (.error .notEnoughNonce)))
      ∧ (nonceSize ≤ (r3.take n.toNat).length →
        (P.gcmOpen key ((r3.take n.toNat).take nonceSize) ((r3.take n.toNat).drop nonceSize)
            = none →
          (key.length = 16 ∨ key.length = 24 ∨ key.length = 32) →
          NewAssetReaderFromBytes P data key = some (.error .decrypt)
            ∧ NewAssetReader P E filePath key = some (.error .decrypt))
        ∧ ∀ d c,
          P.gcmOpen key ((r3.take n.toNat).take nonceSize) ((r3.take n.toNat).drop nonceSize)
            = some d →
          P.gunzip d = .data c →
          Reaches P key data [] (r3.drop n.toNat) (mapInsert idx p ⟨p, t, c⟩)) := by
  have hf := NewAssetReader_eq P E filePath data key hfile
  have hframe := readFrame_header P key p t s r3 hp ht hs
  rw [hn] at hframe
  have hrange : ¬ (n < 0 ∨ (maxAlloc : Int) < n) := by omega
  simp only [readPayload, if_neg hrange] at hframe
  constructor
  · intro hshort
    rw [if_pos hshort] at hframe
    have hvalid : (key.length = 16 ∨ key.length = 24 ∨ key.length = 32) →
        NewAssetReaderFromBytes P data key = some (.error .notEnoughNonce) := by
      intro hkey
      rw [NewAssetReaderFromBytes_at P data key _ idx hkey hreach, hframe]
      rfl
    refine ⟨?_, fun hkey => ⟨hvalid hkey, hf.trans (hvalid hkey)⟩⟩
    by_cases hkey : key.length = 16 ∨ key.length = 24 ∨ key.length = 32
    · exact ⟨_, hvalid hkey, hf.trans (hvalid hkey)⟩
    · have hi := NewAssetReaderFromBytes_invalid_key P data key hkey
      exact ⟨_, hi, hf.trans hi⟩
  · intro hlong
    rw [if_neg (Nat.not_lt.2 hlong)] at hframe
    constructor
    · intro hrej hkey
      rw [hrej] at hframe
      have hmain : NewAssetReaderFromBytes P data key = some (.error .decrypt) := by
        rw [NewAssetReaderFromBytes_at P data key _ idx hkey hreach, hframe]
        rfl
      exact ⟨hmain, hf.trans hmain⟩
    · intro d c hopen hgz
      rw [hopen] at hframe
      simp only [hgz] at hframe
      exact reaches_trans P key _ _ _ _ _ _ hreach (Reaches.step hframe (Reaches.refl _ _))

/-- C12 (blob too short) fails on the code: the stream `a:t:281474976710657:` holds a frame
with no payload byte at all, fewer than the nonce size, but the declared length `2^48 + 1`
is passed to `make([]byte, sizeInt)` unchecked and both constructors panic there, before
the nonce-size check, whatever the primitives are. For a declared length that `make`
accepts (`0 ≤ n ≤ maxAlloc`) the claim holds: the payload is the first `n` bytes after the
header, or the bytes that are left when there are fewer; a payload shorter than the nonce
size (12) gives an error in both constructors, for a valid key the not-enough-data error,
whatever `gcm.Open` would answer; a payload of at least 12 bytes has its first 12 bytes
given to `gcm.Open` as the nonce and the rest as ciphertext and tag. -/
theorem C12_blob_too_short_panics_out_of_range (P : Prims) :
    (NewAssetReaderFromBytes P testHugeLength testKey = some .panic
        ∧ NewAssetReader P (testEnvWith testHugeLength) [102] testKey = some .panic)
      ∧ ∀ (E : Env) (filePath data key : Bytes) (idx : Index) (p t s r3 : Bytes) (n : Int),
          E.readFile filePath = some data →
          Reaches P key data [] (p ++ colon :: (t ++ colon :: (s ++ colon :: r3))) idx →
          colon ∉ p → colon ∉ t → colon ∉ s →
          Atoi s = some n → 0 ≤ n → n ≤ (maxAlloc : Int) →
          ((r3.take n.toNat).length < nonceSize →
              (∃ e, NewAssetReaderFromBytes P data key = some (.error e)
                ∧ NewAssetReader P E filePath key = some (.error e))
              ∧ ((key.length = 16 ∨ key.length = 24 ∨ key.length = 32) →
                NewAssetReaderFromBytes P data key = some (.error .notEnoughNonce)
                  ∧ NewAssetReader P E filePath key = some (.error .notEnoughNonce)))
            ∧ (nonceSize ≤ (r3.take n.toNat).length →
              (P.gcmOpen key ((r3.take n.toNat).take nonceSize) ((r3.take n.toNat).drop nonceSize)
                  = none →
                (key.length = 16 ∨ key.length = 24 ∨ key.length = 32) →
                NewAssetReaderFromBytes P data key = some (.error .decrypt)
                  ∧ NewAssetReader P E filePath key = some (.error .decrypt))
              ∧ ∀ d c,
                P.gcmOpen key ((r3.take n.toNat).take nonceSize) ((r3.take n.toNat).drop nonceSize)
                  = some d →
                P.gunzip d = .data c →
                Reaches P key data [] (r3.drop n.toNat) (mapInsert idx p ⟨p, t, c⟩)) := by
  refine ⟨⟨rfl, rfl⟩, ?_⟩
  intro E filePath data key idx p t s r3 n hfile hreach hp ht hs hn h0 hmax
  exact payload_in_range P E filePath data key idx p t s r3 n hfile hreach hp ht hs hn h0 hmax

/-- Witness for C12: the frame `a:t:0:` declares length 0 and gets the not-enough-data
error. -/
theorem C12_blob_too_short_witness :
    NewAssetReaderFromBytes testPrims testZeroLength testKey = some (.error .notEnoughNonce)
      ∧ NewAssetReader testPrims (testEnvWith testZeroLength) [102] testKey
        = some (.error .notEnoughNonce) :=
  (((C12_blob_too_short_panics_out_of_range testPrims).2 (testEnvWith testZeroLength) [102]
    testZeroLength testKey [] [97] [116] [48] [] 0 (by decide) (Reaches.refl _ _) (by decide)
    (by decide) (by decide) (by decide) (by decide) (by decide)).1 (by decide)).2 (by decide)

/-! ## Claim C13 -/

/-- C13 (invalid key length): for a key whose length is not 16, 24 or 32, `PackAssets`
returns the key error without creating the output file, and `NewAssetReaderFromBytes`
returns the key error, whatever the assets, the file system, the random bytes or the byte
stream are: the key is checked first, and only there. -/
theorem C13_invalid_key (P : Prims) (E : Env) (rand : Bytes) (assets : List Asset)
    (outputPath data key : Bytes)
    (hkey : ¬ (key.length = 16 ∨ key.length = 24 ∨ key.length = 32)) :
    PackAssets P E rand assets outputPath key = ⟨some .invalidKey, none⟩
      ∧ NewAssetReaderFromBytes P data key = some (.error .invalidKey) := by
  refine ⟨?_, NewAssetReaderFromBytes_invalid_key P data key hkey⟩
  simp only [PackAssets, newGCM, hkey, if_false]

/-- Witness for C13: a key of length 3. -/
theorem C13_invalid_key_witness :
    PackAssets testPrims testEnv (List.range 30) testAssets [111] [1, 2, 3]
        = ⟨some .invalidKey, none⟩
      ∧ NewAssetReaderFromBytes testPrims testContainer [1, 2, 3]
        = some (.error .invalidKey) :=
  C13_invalid_key testPrims testEnv (List.range 30) testAssets [111] testContainer [1, 2, 3]
    (by decide)

/-! ## Lemmas: length fields made of digits -/

theorem parseUintDigits_of_digits (a : Nat) (s : Bytes)
    (h : s.all (fun c => decide (48 ≤ c ∧ c ≤ 57)) = true) :
    parseUintDigits a s = some (s.foldl (fun acc c => acc * 10 + (c - 48)) a) := by
  induction s generalizing a with
  | nil => rfl
  | cons c s ih =>
    simp only [List.all_cons, Bool.and_eq_true, decide_eq_true_eq] at h
    simp only [parseUintDigits, h.1, and_self, if_true, List.foldl_cons]
    exact ih _ h.2

theorem isDigits_cons (s : Bytes) (h : isDigits s = true) :
    ∃ c t, s = c :: t ∧ 48 ≤ c ∧ c ≤ 57
      ∧ s.all (fun c => decide (48 ≤ c ∧ c ≤ 57)) = true := by
  cases s with
  | nil => simp [isDigits] at h
  | cons c t =>
    have hall : (c :: t).all (fun c => decide (48 ≤ c ∧ c ≤ 57)) = true := by
      simpa [isDigits] using h
    have hc : 48 ≤ c ∧ c ≤ 57 := by
      simp only [List.all_cons, Bool.and_eq_true, decide_eq_true_eq] at hall
      exact hall.1
    exact ⟨c, t, rfl, hc.1, hc.2, hall⟩

theorem colon_not_mem_of_isDigits (s : Bytes) (h : isDigits s = true) : colon ∉ s := by
  obtain ⟨c, t, -, -, -, hall⟩ := isDigits_cons s h
  intro hmem
  rw [List.all_eq_true] at hall
  have := hall colon hmem
  simp [colon] at this

/-- The function `strconv.Atoi` on a non-empty string of digits whose value fits `int`:
leading zeros make no difference. -/
theorem Atoi_of_digits (s : Bytes) (h : isDigits s = true) (hfit : decimalValue s < 2 ^ 63) :
    Atoi s = some (decimalValue s : Int) := by
  obtain ⟨c, t, rfl, hc1, hc2, hall⟩ := isDigits_cons s h
  have h43 : c ≠ 43 := by omega
  have h45 : c ≠ 45 := by omega
  have hp := parseUintDigits_of_digits 0 (c :: t) hall
  have hn2 : decimalValue (c :: t) < 9223372036854775808 := by
    norm_num at hfit
    exact hfit
  simp only [decimalValue] at hn2 ⊢
  simp [Atoi, h43, h45, hp]
  simpa using hn2

theorem readPayload_frame_rest (P : Prims) (key p t r3 : Bytes) (n : Int) (a : Asset)
    (rest : Bytes) (h : readPayload P key p t n r3 = .frame a rest) :
    rest = r3.drop n.toNat := by
  rw [readPayload] at h
  by_cases hneg : n < 0 ∨ (maxAlloc : Int) < n
  · rw [if_pos hneg] at h
    exact Step.noConfusion h
  · rw [if_neg hneg] at h
    by_cases hlen : (List.take n.toNat r3).length < nonceSize
    · rw [if_pos hlen] at h
      exact Step.noConfusion h
    · rw [if_neg hlen] at h
      cases ho : P.gcmOpen key (List.take nonceSize (List.take n.toNat r3))
          (List.drop nonceSize (List.take n.toNat r3)) with
      | none => simp [ho] at h
      | some d =>
        simp only [ho] at h
        cases hg : P.gunzip d with
        | badHeader => simp [hg] at h
        | badBody => simp [hg] at h
        | data c =>
          simp only [hg, Step.frame.injEq] at h
          exact h.2.symm

/-! ## Claim C14 -/

/-- C14 (leading zeros in the length field): for a non-empty string of ASCII digits `s`
whose value `n` fits `int`, an iteration on a frame whose length field is `s` does what it
does on the same frame with the canonical decimal rendering of `n`: the payload is the
first `n` bytes after the header, and when the frame completes the next iteration starts
right after them. Two streams that differ only in this way of writing the length get the
same result from the constructor. -/
theorem C14_leading_zeros (P : Prims) (key p t s r3 : Bytes)
    (hp : colon ∉ p) (ht : colon ∉ t) (hs : isDigits s = true)
    (hfit : decimalValue s < 2 ^ 63) :
    readFrame P key (p ++ colon :: (t ++ colon :: (s ++ colon :: r3)))
        = readFrame P key (p ++ colon :: (t ++ colon :: (itoa (decimalValue s) ++ colon :: r3)))
      ∧ readFrame P key (p ++ colon :: (t ++ colon :: (s ++ colon :: r3)))
        = readPayload P key p t (decimalValue s : Int) r3
      ∧ (∀ a rest, readFrame P key (p ++ colon :: (t ++ colon :: (s ++ colon :: r3)))
            = .frame a rest → rest = r3.drop (decimalValue s))
      ∧ (∀ data1 data2 idx, (key.length = 16 ∨ key.length = 24 ∨ key.length = 32) →
          Reaches P key data1 [] (p ++ colon :: (t ++ colon :: (s ++ colon :: r3))) idx →
          Reaches P key data2 []
            (p ++ colon :: (t ++ colon :: (itoa (decimalValue s) ++ colon :: r3))) idx →
          NewAssetReaderFromBytes P data1 key = NewAssetReaderFromBytes P data2 key) := by
  have h1 : readFrame P key (p ++ colon :: (t ++ colon :: (s ++ colon :: r3)))
      = readPayload P key p t (decimalValue s : Int) r3 := by
    rw [readFrame_header P key p t s r3 hp ht (colon_not_mem_of_isDigits s hs),
      Atoi_of_digits s hs hfit]
  have h2 : readFrame P key
      (p ++ colon :: (t ++ colon :: (itoa (decimalValue s) ++ colon :: r3)))
      = readPayload P key p t (decimalValue s : Int) r3 := by
    rw [readFrame_header P key p t _ r3 hp ht (colon_not_mem_itoa _), Atoi_itoa _ hfit]
  refine ⟨h1.trans h2.symm, h1, ?_, ?_⟩
  · intro a rest hframe
    rw [h1] at hframe
    have := readPayload_frame_rest P key p t r3 _ a rest hframe
    rw [Int.toNat_ofNat] at this
    exact this
  · intro data1 data2 idx hkey hr1 hr2
    rw [NewAssetReaderFromBytes_at P data1 key _ idx hkey hr1,
      NewAssetReaderFromBytes_at P data2 key _ idx hkey hr2, h1, h2]

/-- Witness for C14: the length field `017` against `17`. -/
theorem C14_leading_zeros_witness :
    NewAssetReaderFromBytes testPrims testLeadingZero testKey
      = NewAssetReaderFromBytes testPrims testFirstFrame testKey :=
  (C14_leading_zeros testPrims testKey [97] [116] [48, 49, 55]
    [0, 1, 2, 3, 4, 5, 6, 7, 8, 9, 10, 11, 31, 0, 1, 2, 123]
    (by decide) (by decide) (by decide) (by decide)).2.2.2
    testLeadingZero testFirstFrame [] (by decide) (Reaches.refl _ _) (Reaches.refl _ _)

/-! ## Lemmas: the delimiter in identifiers -/

theorem decodeFrames_colon_free (P : Prims) (key : Bytes) (f : Nat) (d : Bytes) :
    ∀ a ∈ decodeFrames P key f d, colon ∉ a.Path ∧ colon ∉ a.Typ := by
  induction f generalizing d with
  | zero => simp [decodeFrames]
  | succ k ih =>
    intro a ha
    rw [decodeFrames] at ha
    cases hf : readFrame P key d with
    | stop => simp [hf] at ha
    | fail e => simp [hf] at ha
    | panic => simp [hf] at ha
    | frame b rest =>
      simp only [hf, List.mem_cons] at ha
      rcases ha with rfl | ha
      · obtain ⟨_, _, _, _, _, c1, c2, _⟩ := readFrame_frame_inv P key d a rest hf
        exact ⟨c1, c2⟩
      · exact ih rest a ha

theorem mapLookup_foldl_mem (frames : List Asset) (k : Bytes) (a : Asset)
    (h : mapLookup (frames.foldl (fun m a => mapInsert m a.Path a) []) k = some a) :
    a ∈ frames := by
  rw [mapLookup_foldl] at h
  cases hf : frames.reverse.find? (fun a => decide (a.Path = k)) with
  | none => simp [hf, mapLookup] at h
  | some b =>
    simp only [hf, Option.some.injEq] at h
    subst h
    exact List.mem_reverse.1 (List.mem_of_find?_eq_some hf)

/-- Every asset in the index of a constructed reader has an identifier and a type tag
without the delimiter. -/
theorem constructed_colon_free (P : Prims) (E : Env) (filePath data key : Bytes)
    (r : AssetReader)
    (h : NewAssetReaderFromBytes P data key = some (.ok r)
      ∨ (E.readFile filePath = some data ∧ NewAssetReader P E filePath key = some (.ok r)))
    (k : Bytes) (a : Asset) (hk : mapLookup r.assets k = some a) :
    a.Path = k ∧ colon ∉ a.Path ∧ colon ∉ a.Typ := by
  have hl := loop_of_constructed P E filePath data key r h
  have hdec := readLoopBytes_ok_decode P key _ data [] r.assets hl
  have hkeys : keysArePaths r.assets := by
    rw [hdec]
    exact keysArePaths_foldl _ [] (fun k a hk => by simp [mapLookup] at hk)
  rw [hdec] at hk
  exact ⟨hkeys k a (by rw [hdec]; exact hk),
    decodeFrames_colon_free P key _ data a (mapLookup_foldl_mem _ k a hk)⟩

theorem key_of_constructed (P : Prims) (E : Env) (filePath data key : Bytes)
    (r : AssetReader)
    (h : NewAssetReaderFromBytes P data key = some (.ok r)
      ∨ (E.readFile filePath = some data ∧ NewAssetReader P E filePath key = some (.ok r))) :
    key.length = 16 ∨ key.length = 24 ∨ key.length = 32 := by
  by_contra hkey
  have hi := NewAssetReaderFromBytes_invalid_key P data key hkey
  rcases h with h | ⟨hf, h⟩
  · rw [hi] at h
    simp at h
  · rw [NewAssetReader_eq P E filePath data key hf, hi] at h
    simp at h

/-- The writer loop returns no error when every asset can be read and compressed and there
are enough random bytes: nothing else is checked. -/
theorem packLoop_success (P : Prims) (E : Env) (key : Bytes) (assets : List Asset)
    (rand out : Bytes)
    (hfile : ∀ a ∈ assets, ∃ c z, E.readFile a.Path = some c ∧ P.gzip c = some z)
    (hrand : nonceSize * assets.length ≤ rand.length) :
    (packLoop P E key assets rand out).1 = none := by
  induction assets generalizing rand out with
  | nil => rfl
  | cons a assets ih =>
    obtain ⟨c, z, hc, hz⟩ := hfile a (by simp)
    have hr : nonceSize ≤ rand.length
        ∧ nonceSize * assets.length ≤ (rand.drop nonceSize).length := by
      simp only [List.length_cons, Nat.mul_succ, List.length_drop] at hrand ⊢
      omega
    rw [packLoop]
    simp only [openFile, hc, compressAsset, hz, if_neg (Nat.not_lt.2 hr.1)]
    exact ih _ _ (fun b hb => hfile b (by simp [hb])) hr.2

/-! ## Claim C15 -/

/-- C15 (delimiter hazard): for a reader returned by either constructor, `GetAsset` under
an identifier that contains `':'` returns not-found, and every indexed asset has a `Path`
and a type tag free of `':'`. `PackAssets` does not validate identifiers: it returns no
error whenever the output file can be created, every asset can be read and compressed and
there are enough random bytes, with or without `':'` in the identifiers; and if the stream
it wrote is read back successfully, the lookup under an identifier that contains `':'`
still returns not-found. -/
theorem C15_delimiter_hazard (P : Prims) (E : Env) (filePath data key : Bytes)
    (r : AssetReader)
    (h : NewAssetReaderFromBytes P data key = some (.ok r)
      ∨ (E.readFile filePath = some data ∧ NewAssetReader P E filePath key = some (.ok r))) :
    (∀ p, colon ∈ p → (GetAsset r p).1 = .error .notFound)
      ∧ (∀ k a, mapLookup r.assets k = some a → colon ∉ a.Path ∧ colon ∉ a.Typ)
      ∧ (∀ (E2 : Env) (rand : Bytes) (assets : List Asset) (outputPath : Bytes),
          E2.create outputPath = true →
          (∀ a ∈ assets, ∃ c z, E2.readFile a.Path = some c ∧ P.gzip c = some z) →
          nonceSize * assets.length ≤ rand.length →
          (PackAssets P E2 rand assets outputPath key).err = none)
      ∧ (∀ (E2 : Env) (rand : Bytes) (assets : List Asset) (outputPath written : Bytes)
          (r2 : AssetReader) (a : Asset),
          PackAssets P E2 rand assets outputPath key = ⟨none, some written⟩ →
          a ∈ assets → colon ∈ a.Path →
          NewAssetReaderFromBytes P written key = some (.ok r2) →
          (GetAsset r2 a.Path).1 = .error .notFound) := by
  have hnot : ∀ (d2 : Bytes) (r2 : AssetReader) (p : Bytes),
      NewAssetReaderFromBytes P d2 key = some (.ok r2) → colon ∈ p →
      (GetAsset r2 p).1 = .error .notFound := by
    intro d2 r2 p h2 hp
    unfold GetAsset
    cases hm : mapLookup r2.assets p with
    | none => rfl
    | some a =>
      obtain ⟨e1, c1, -⟩ := constructed_colon_free P E [] d2 key r2 (Or.inl h2) p a hm
      rw [e1] at c1
      exact absurd hp c1
  have hbytes : NewAssetReaderFromBytes P data key = some (.ok r) := by
    rcases h with h | ⟨hf, h⟩
    · exact h
    · rw [← NewAssetReader_eq P E filePath data key hf]
      exact h
  have hkey := key_of_constructed P E filePath data key r h
  refine ⟨fun p hp => hnot data r p hbytes hp, ?_, ?_, ?_⟩
  · intro k a hk
    exact (constructed_colon_free P E filePath data key r h k a hk).2
  · intro E2 rand assets outputPath hcreate hfile hrand
    simp only [PackAssets, newGCM, hkey, if_true, hcreate, Bool.true_eq_false, if_false]
    exact packLoop_success P E2 key assets rand [] hfile hrand
  · intro E2 rand assets outputPath written r2 a _ _ hcolon h2
    exact hnot written r2 a.Path h2 hcolon

/-- Witness for C15: the reader of `testContainer` has nothing under `a:b`, and an asset
with the identifier `a:b` is packed without an error. -/
theorem C15_delimiter_hazard_witness :
    (GetAsset ⟨[([98], ⟨[98], [117, 118], []⟩), ([97], ⟨[97], [116], [0, 1, 2]⟩)]⟩
        [97, 58, 98]).1 = .error .notFound
      ∧ (PackAssets testPrims testEnvColon (List.range 30) [⟨[97, 58, 98], [116], []⟩] [111]
          testKey).err = none :=
  ⟨(C15_delimiter_hazard testPrims testEnv [] testContainer testKey
      ⟨[([98], ⟨[98], [117, 118], []⟩), ([97], ⟨[97], [116], [0, 1, 2]⟩)]⟩
      (Or.inl (by decide))).1 [97, 58, 98] (by decide),
   (C15_delimiter_hazard testPrims testEnv [] testContainer testKey
      ⟨[([98], ⟨[98], [117, 118], []⟩), ([97], ⟨[97], [116], [0, 1, 2]⟩)]⟩
      (Or.inl (by decide))).2.2.1 testEnvColon (List.range 30) [⟨[97, 58, 98], [116], []⟩]
      [111] (by decide)
      (fun a ha => by
        rw [List.mem_singleton] at ha
        subst ha
        exact ⟨[], [31], rfl, rfl⟩)
      (by decide)⟩

/-! ## Lemmas: where the loop can panic -/

/-- With more fuel than bytes, a loop that ends in a panic has arrived at an iteration that
panics. -/
theorem readLoopBytes_panic (P : Prims) (key : Bytes) (f : Nat) (d : Bytes) (i : Index)
    (h : readLoopBytes P key f d i = some .panic) :
    ∃ rest idx, Reaches P key d i rest idx ∧ readFrame P key rest = .panic := by
  induction f generalizing d i with
  | zero => simp [readLoopBytes] at h
  | succ k ih =>
    rw [readLoopBytes_succ] at h
    cases hf : readFrame P key d with
    | stop => simp [hf] at h
    | fail e => simp [hf] at h
    | panic => exact ⟨d, i, Reaches.refl _ _, hf⟩
    | frame a rest =>
      simp only [hf] at h
      obtain ⟨rest2, idx2, hr, hp⟩ := ih rest _ h
      exact ⟨rest2, idx2, Reaches.step hf hr, hp⟩

/-- An iteration panics only in `make`, on a length field that parses to a negative
number or to a number above `maxAlloc`; the slice expressions are always in range. -/
theorem readFrame_panic (P : Prims) (key rest : Bytes) (h : readFrame P key rest = .panic) :
    ∃ p t s r3 n, rest = p ++ colon :: (t ++ colon :: (s ++ colon :: r3))
      ∧ colon ∉ p ∧ colon ∉ t ∧ colon ∉ s ∧ Atoi s = some n
      ∧ (n < 0 ∨ (maxAlloc : Int) < n) := by
  rw [readFrame] at h
  cases h1 : readUntilColon rest with
  | none => simp [h1] at h
  | some p1 =>
    obtain ⟨path, r1⟩ := p1
    simp only [h1] at h
    cases h2 : readUntilColon r1 with
    | none => simp [h2] at h
    | some p2 =>
      obtain ⟨typeStr, r2⟩ := p2
      simp only [h2] at h
      cases h3 : readUntilColon r2 with
      | none => simp [h3] at h
      | some p3 =>
        obtain ⟨sizeStr, r3⟩ := p3
        simp only [h3] at h
        cases h4 : Atoi sizeStr with
        | none => simp [h4] at h
        | some sizeInt =>
          simp only [h4, readPayload] at h
          by_cases hneg : sizeInt < 0 ∨ (maxAlloc : Int) < sizeInt
          · obtain ⟨c1, e1⟩ := readUntilColon_some _ _ _ h1
            obtain ⟨c2, e2⟩ := readUntilColon_some _ _ _ h2
            obtain ⟨c3, e3⟩ := readUntilColon_some _ _ _ h3
            refine ⟨path, typeStr, sizeStr, r3, sizeInt, ?_, c1, c2, c3, h4, hneg⟩
            rw [e1, e2, e3]
          · rw [if_neg hneg] at h
            by_cases hlen : (List.take sizeInt.toNat r3).length < nonceSize
            · rw [if_pos hlen] at h
              exact Step.noConfusion h
            · rw [if_neg hlen] at h
              cases ho : P.gcmOpen key (List.take nonceSize (List.take sizeInt.toNat r3))
                  (List.drop nonceSize (List.take sizeInt.toNat r3)) with
              | none => simp [ho] at h
              | some d =>
                simp only [ho] at h
                cases hg : P.gunzip d <;> simp [hg] at h

/-- Both constructors always return: a reader, an error or a panic. -/
theorem NewAssetReaderFromBytes_returns (P : Prims) (data key : Bytes) :
    ∃ o, NewAssetReaderFromBytes P data key = some o := by
  unfold NewAssetReaderFromBytes
  cases newGCM key with
  | error e => exact ⟨_, rfl⟩
  | ok u =>
    obtain ⟨o, ho⟩ := readLoopBytes_total P key (data.length + 1) data [] (by omega)
    simp only [ho]
    cases o with
    | ok a => exact ⟨_, rfl⟩
    | error e => exact ⟨_, rfl⟩
    | panic => exact ⟨_, rfl⟩

/-! ## Claim C16 -/

/-- C16 (no panic on arbitrary input) fails on the code: the length field is passed to
`make([]byte, sizeInt)` unchecked. On the stream `a:t:-5:` it parses to `-5`, on the stream
`a:t:281474976710657:` to `2^48 + 1`, and in both cases both constructors panic in `make`,
whatever the primitives are. The rest of the claim holds: the constructor always returns,
and it panics only when the loop arrives at a header whose length field parses to a negative
number or to a number above `maxAlloc`; the slice expressions never go out of range. -/
theorem C16_length_out_of_range_panics (P : Prims) :
    (NewAssetReaderFromBytes P testNegativeLength testKey = some .panic
        ∧ NewAssetReader P (testEnvWith testNegativeLength) [102] testKey = some .panic)
      ∧ (NewAssetReaderFromBytes P testHugeLength testKey = some .panic
        ∧ NewAssetReader P (testEnvWith testHugeLength) [102] testKey = some .panic)
      ∧ (∀ data key, ∃ o, NewAssetReaderFromBytes P data key = some o)
      ∧ (∀ data key, NewAssetReaderFromBytes P data key = some .panic →
          ∃ rest idx p t s r3 n, Reaches P key data [] rest idx
            ∧ rest = p ++ colon :: (t ++ colon :: (s ++ colon :: r3))
            ∧ colon ∉ p ∧ colon ∉ t ∧ colon ∉ s ∧ Atoi s = some n
            ∧ (n < 0 ∨ (maxAlloc : Int) < n)) := by
  refine ⟨⟨rfl, rfl⟩, ⟨rfl, rfl⟩, NewAssetReaderFromBytes_returns P, ?_⟩
  intro data key h
  unfold NewAssetReaderFromBytes at h
  cases hk : newGCM key with
  | error e => simp [hk] at h
  | ok u =>
    simp only [hk] at h
    cases hl : readLoopBytes P key (data.length + 1) data [] with
    | none => simp [hl, toReader] at h
    | some o =>
      cases o with
      | ok a => simp [hl, toReader] at h
      | error e => simp [hl, toReader] at h
      | panic =>
        obtain ⟨rest, idx, hr, hp⟩ := readLoopBytes_panic P key _ data [] hl
        obtain ⟨p, t, s, r3, n, h1, h2, h3, h4, h5, h6⟩ := readFrame_panic P key rest hp
        exact ⟨rest, idx, p, t, s, r3, n, hr, h1, h2, h3, h4, h5, h6⟩

/-! ## Claim C17 -/

/-- C17 (the two constructors agree): on a file whose contents are `data`, `NewAssetReader`
returns exactly what `NewAssetReaderFromBytes` returns on `data`: the same error, the same
panic, or readers with the same index; the two frame loops agree in every state. -/
theorem C17_constructors_agree (P : Prims) (E : Env) (filePath data key : Bytes)
    (hfile : E.readFile filePath = some data) :
    NewAssetReader P E filePath key = NewAssetReaderFromBytes P data key
      ∧ ∀ fuel reader assets,
          readLoopFile P key fuel reader assets = readLoopBytes P key fuel reader assets := by
  refine ⟨?_, fun fuel reader assets => readLoopFile_eq P key fuel reader assets⟩
  simp only [NewAssetReader, NewAssetReaderFromBytes, hfile]
  cases newGCM key with
  | error e => rfl
  | ok u =>
    simp only []
    rw [readLoopFile_eq]

/-- Witness for C17: a file that holds `testContainer`. -/
theorem C17_constructors_agree_witness :
    NewAssetReader testPrims (testEnvWith testContainer) [102] testKey
      = NewAssetReaderFromBytes testPrims testContainer testKey :=
  (C17_constructors_agree testPrims (testEnvWith testContainer) [102] testContainer testKey
    (by decide)).1

/-! ## Claim C18 -/

theorem readFrame_frame_count (P : Prims) (key d : Bytes) (a : Asset) (rest : Bytes)
    (h : readFrame P key d = .frame a rest) : rest.count colon + 3 ≤ d.count colon := by
  obtain ⟨sizeStr, r3, sizeInt, decrypted, hd, c1, c2, c3, -, -, -, -, -, hr⟩ :=
    readFrame_frame_inv P key d a rest h
  have hsub := (List.drop_sublist sizeInt.toNat r3).count_le colon
  subst hd hr
  simp only [List.count_append, List.count_cons_self, List.count_eq_zero.2 c1,
    List.count_eq_zero.2 c2, List.count_eq_zero.2 c3]
  omega

theorem decodeFrames_length (P : Prims) (key : Bytes) (f : Nat) (d : Bytes) :
    3 * (decodeFrames P key f d).length ≤ d.count colon := by
  induction f generalizing d with
  | zero => simp [decodeFrames]
  | succ k ih =>
    rw [decodeFrames]
    cases hf : readFrame P key d with
    | stop => simp
    | fail e => simp
    | panic => simp
    | frame a rest =>
      have h1 := readFrame_frame_count P key d a rest hf
      have h2 := ih rest
      simp only [List.length_cons]
      omega

/-- C18 (the parse loop terminates): `readUntilColon` returns end of stream exactly when no
`':'` is left, and otherwise returns the bytes before the first `':'` and the stream after
it, at least one byte shorter; an iteration of the frame loop that completes a frame leaves
a strictly shorter stream (at least three bytes shorter); the constructor returns on every
input; and the number of frames parsed is at most the number of `':'` bytes in the input
divided by three. -/
theorem C18_parse_loop_terminates (P : Prims) (key data : Bytes) :
    (∀ r, (readUntilColon r = none ∧ colon ∉ r)
        ∨ ∃ s r2, readUntilColon r = some (s, r2) ∧ r = s ++ colon :: r2 ∧ colon ∉ s
            ∧ r2.length < r.length)
      ∧ (∀ d a rest, readFrame P key d = .frame a rest → rest.length + 3 ≤ d.length)
      ∧ (∃ o, NewAssetReaderFromBytes P data key = some o)
      ∧ (∃ o, readLoopBytes P key (data.length + 1) data [] = some o)
      ∧ (decodeFrames P key (data.length + 1) data).length ≤ data.count colon / 3 := by
  refine ⟨?_, fun d a rest h => readFrame_frame_length P key d a rest h,
    NewAssetReaderFromBytes_returns P data key,
    readLoopBytes_total P key _ data [] (by omega), ?_⟩
  · intro r
    cases hr : readUntilColon r with
    | none => exact Or.inl ⟨rfl, (readUntilColon_eq_none_iff r).1 hr⟩
    | some pr =>
      obtain ⟨s, r2⟩ := pr
      obtain ⟨c, e⟩ := readUntilColon_some r s r2 hr
      refine Or.inr ⟨s, r2, rfl, e, c, ?_⟩
      rw [e]
      simp only [List.length_append, List.length_cons]
      omega
  · have := decodeFrames_length P key (data.length + 1) data
    omega

end AssetPacker
